import Mathlib

/-!
Verification of the midi2shawzin conversion pipeline.

This file gives a shallow embedding, in Lean 4, of the parts of the
`midi2shawzin` Python package that the specification's claims are about:

* `encoder.py` — the Shawzin text codec (`time_to_shawzin_time`,
  `shawzin_time_to_seconds`, `events_to_shawzin_text`, and the parsing
  part of `read_shawzin_file`);
* `pattern_detection.py` — `fold_repeats_into_refs` / `expand_pattern_refs`;
* `chord_handling.py` — `group_simultaneous`, `reduce_chord`;
* `key_detection.py` — `build_pitch_class_histogram`, `score_key`,
  `detect_best_scale`;
* `midi_io.py` — `merge_note_events`;
* `mapper.py` — `map_note_to_shawzin`.

Modelling conventions: Python `str` values become `List Char`; Python
`float` arithmetic is modelled exactly over `ℚ` (in the code paths under
study every float operation is scaling by powers of two, addition, or
comparison, so the rational model agrees with IEEE doubles on all inputs
considered); Python `round` is round-half-to-even (`pyRound`); Python `%`
and `//` on integers are `Int.fmod` / `Int.fdiv`; fallible code returns
`Except`; Python's insertion-ordered `dict` becomes an association list;
Python's stable `sorted` becomes `List.mergeSort` with a `≤` test on the
sort key.  Python's string `hash` is randomized per process, so the
pattern detector is parameterized by an arbitrary hash function.
-/

unseal Rat.mul Rat.inv Rat.add Rat.sub

namespace M2S

/-! ## Python primitives -/

/-- Absolute value on `ℚ`, written with `if` so that it evaluates inside
the kernel (equal to `|·|`, see `ratAbs_eq`). -/
def ratAbs (q : ℚ) : ℚ := if q < 0 then -q else q

/-- Absolute value on `ℤ`, written with `if` so that it evaluates inside
the kernel (equal to `|·|`, see `intAbs_eq`). -/
def intAbs (n : ℤ) : ℤ := if n < 0 then -n else n

/-- Binary maximum on `ℚ`, written with `if` (equal to `max`). -/
def ratMax (a b : ℚ) : ℚ := if a ≤ b then b else a

/-- Binary maximum on `ℤ`, written with `if` (equal to `max`). -/
def intMax (a b : ℤ) : ℤ := if a ≤ b then b else a

/-- Python `round`: round half to even (banker's rounding) on exact rationals. -/
def pyRound (q : ℚ) : ℤ :=
  let f := ⌊q⌋
  let r := q - (f : ℚ)
  if r < 1/2 then f
  else if 1/2 < r then f + 1
  else if f % 2 = 0 then f else f + 1

/-- ASCII whitespace, as stripped by Python `str.strip` (restricted to ASCII). -/
def isPyWhitespace (c : Char) : Bool :=
  c = ' ' || c = '\t' || c = '\n' || c = '\r' || c = '\x0b' || c = '\x0c'

/-- Python `str.strip`: drop whitespace from both ends. -/
def pyStrip (s : List Char) : List Char :=
  ((s.dropWhile isPyWhitespace).reverse.dropWhile isPyWhitespace).reverse

/-- Python `str.isdigit` on a single ASCII character. -/
def isPyDigit (c : Char) : Bool := Char.isDigit c

/-- Python `str.isalnum` on a single ASCII character. -/
def isPyAlnum (c : Char) : Bool := Char.isAlphanum c

/-- Python `'\n'.join`. -/
def joinNL : List (List Char) → List Char
  | [] => []
  | [l] => l
  | l :: ls => l ++ '\n' :: joinNL ls

/-- Python `str.split('\n')`: always at least one (possibly empty) part;
a separator between every two adjacent parts. -/
def splitNL (s : List Char) : List (List Char) :=
  match s with
  | [] => [[]]
  | c :: rest =>
    let r := splitNL rest
    if c = '\n' then [] :: r
    else (c :: r.headD []) :: r.tail

/-- Python `list.index` returning `none` instead of raising `ValueError`. -/
def py_index {α : Type} [DecidableEq α] (l : List α) (x : α) : Option ℕ :=
  match l with
  | [] => none
  | a :: t => if a = x then some 0 else (py_index t x).map (· + 1)

/-- Python stable ascending `sorted(xs, key=key)` for a rational sort key
(insertion sort is stable with this comparison, like Python's sort). -/
def pySortByKey {α : Type} (key : α → ℚ) (xs : List α) : List α :=
  List.insertionSort (fun a b => key a ≤ key b) xs

/-- Python list slice `xs[i:j]`. -/
def pySlice {α : Type} (xs : List α) (i j : ℕ) : List α :=
  (xs.drop i).take (j - i)

/-! ## shawzin_mapping.py -/

/-- The 64-character time alphabet `base64_chars` from `shawzin_mapping.py`. -/
def base64_chars : List Char :=
  ['A', 'B', 'C', 'D', 'E', 'F', 'G', 'H', 'I', 'J', 'K', 'L', 'M',
   'N', 'O', 'P', 'Q', 'R', 'S', 'T', 'U', 'V', 'W', 'X', 'Y', 'Z',
   'a', 'b', 'c', 'd', 'e', 'f', 'g', 'h', 'i', 'j', 'k', 'l', 'm',
   'n', 'o', 'p', 'q', 'r', 's', 't', 'u', 'v', 'w', 'x', 'y', 'z',
   '0', '1', '2', '3', '4', '5', '6', '7', '8', '9', '+', '/']

/-- The twelve note characters that occur as values of `scaleDict` in
`shawzin_mapping.py` (every scale uses the same character set). -/
def shawzin_note_chars : List Char :=
  ['1', 'q', 'a', 'z', '2', 'w', 's', 'x', '3', 'e', 'd', 'c']

/-! ## encoder.py -/

/-- `ShawzinNote` from `mapper.py` (times modelled in `ℚ`; the `character`
field is a single-character string in the source, modelled as `Char`). -/
structure ShawzinNote where
  character : Char
  time_sec : ℚ
  duration_sec : ℚ
  original_midi : ℤ
  mapped_midi : ℤ
  scale_id : ℕ
  octave_shift : ℤ
deriving Repr, DecidableEq

/-- `EncodingSettings` from `encoder.py` (fields used by the codec). -/
structure EncodingSettings where
  seconds_per_measure : ℚ
  seconds_per_tick : ℚ
  max_notes_per_chunk : ℕ
  max_length_per_line : ℕ
  keep_offsets : Bool
  scale_id : ℕ
deriving Repr, DecidableEq

/-- The default `EncodingSettings()` values. -/
def default_settings : EncodingSettings :=
  ⟨4, 1/16, 1666, 256, true, 1⟩

/-- `time_to_shawzin_time` from `encoder.py`: delta seconds to the
two-character measure/tick encoding, with wraparound modulo 64. -/
def time_to_shawzin_time (delta_seconds : ℚ)
    (seconds_per_measure : ℚ) (seconds_per_tick : ℚ) : List Char :=
  let total_ticks : ℤ := intMax 0 (pyRound (delta_seconds / seconds_per_tick))
  let ticks_per_measure : ℤ := intMax 1 (pyRound (seconds_per_measure / seconds_per_tick))
  let measure_index : ℤ := Int.fdiv total_ticks ticks_per_measure
  let tick_index : ℤ := Int.fmod total_ticks ticks_per_measure
  let measure_char := base64_chars.getD (Int.fmod measure_index base64_chars.length).toNat 'A'
  let tick_char := base64_chars.getD (Int.fmod tick_index base64_chars.length).toNat 'A'
  [measure_char, tick_char]

/-- `shawzin_time_to_seconds` from `encoder.py`: decode a two-character
time string back to seconds (`Except` models the `ValueError` raises). -/
def shawzin_time_to_seconds (time_str : List Char)
    (seconds_per_measure : ℚ := 4) (seconds_per_tick : ℚ := 1/16) :
    Except String ℚ :=
  match time_str with
  | [c1, c2] =>
    match py_index base64_chars c1, py_index base64_chars c2 with
    | some measure_index, some tick_index =>
      let ticks_per_measure : ℤ := intMax 1 (pyRound (seconds_per_measure / seconds_per_tick))
      let total_ticks : ℤ := (measure_index : ℤ) * ticks_per_measure + (tick_index : ℤ)
      .ok ((total_ticks : ℚ) * seconds_per_tick)
    | _, _ => .error "Invalid character in time string"
  | _ => .error "Time string must be 2 characters"

/-- `event_to_shawzin_token` from `encoder.py`: note character plus the
two time characters. -/
def event_to_shawzin_token (shawzin_char : Char) (quantized_delta_seconds : ℚ)
    (settings : EncodingSettings) : List Char :=
  shawzin_char :: time_to_shawzin_time quantized_delta_seconds
    settings.seconds_per_measure settings.seconds_per_tick

/-- `create_scale_header` from `encoder.py`: `f"{scale_id}"`. -/
def create_scale_header (scale_id : ℕ) : List Char :=
  (Nat.repr scale_id).data

/-- State of the chunking loop in `events_to_shawzin_text`. -/
structure EncSt where
  chunks : List (List Char)
  lines : List (List Char)
  line : List Char
  notes_in_chunk : ℕ
  last_time : ℚ
deriving Repr, DecidableEq

/-- One iteration of the `for event in events` loop of
`events_to_shawzin_text` (chunk-boundary check, then line-length check). -/
def enc_step (max_notes max_length : ℕ) (keep_offsets : Bool)
    (settings : EncodingSettings) (st : EncSt) (event : ShawzinNote) : EncSt :=
  let delta_time : ℚ := if keep_offsets then event.time_sec - st.last_time else 0
  let last_time1 : ℚ := if keep_offsets then event.time_sec else st.last_time
  let token := event_to_shawzin_token event.character delta_time settings
  if st.notes_in_chunk ≥ max_notes then
    -- finish current chunk, start a new one with a fresh header and zero delta
    let lines0 := st.lines ++ (if st.line = [] then [] else [st.line])
    let chunks1 := st.chunks ++ [joinNL lines0]
    let header_line := create_scale_header event.scale_id
    let delta1 : ℚ := if keep_offsets then 0 else delta_time
    let token1 := event_to_shawzin_token event.character delta1 settings
    if 0 + token1.length > max_length then
      ⟨chunks1, [header_line, []], token1, 1, event.time_sec⟩
    else
      ⟨chunks1, [header_line], token1, 1, event.time_sec⟩
  else
    if st.line.length + token.length > max_length then
      ⟨st.chunks, st.lines ++ [st.line], token, st.notes_in_chunk + 1, last_time1⟩
    else
      ⟨st.chunks, st.lines, st.line ++ token, st.notes_in_chunk + 1, last_time1⟩

/-- `events_to_shawzin_text` from `encoder.py`: encode notes into chunked
text (one `List Char` per output chunk). -/
def events_to_shawzin_text (events : List ShawzinNote)
    (max_notes : ℕ := 1666) (max_length : ℕ := 256)
    (keep_offsets : Bool := true)
    (settings : EncodingSettings := default_settings) : List (List Char) :=
  match events with
  | [] => [create_scale_header settings.scale_id]
  | e0 :: _ =>
    let st0 : EncSt := ⟨[], [], create_scale_header e0.scale_id, 0, 0⟩
    let stf := (events.foldl (enc_step max_notes max_length keep_offsets settings) st0)
    let lines1 := stf.lines ++ (if stf.line = [] then [] else [stf.line])
    let chunks1 := stf.chunks ++ (if lines1 = [] then [] else [joinNL lines1])
    if chunks1 = [] then [create_scale_header e0.scale_id] else chunks1

/-- The token-scanning loop of `read_shawzin_file`: process the filtered
content in 3-character slices while at least 3 characters remain,
accumulating absolute time; a leftover of 1 or 2 characters is dropped. -/
def parse_note_tokens : List Char → ℚ → Except String (List (Char × ℚ))
  | c :: t1 :: t2 :: rest, current_time => do
    let delta_seconds ← shawzin_time_to_seconds [t1, t2]
    let t := current_time + delta_seconds
    let tail ← parse_note_tokens rest t
    pure ((c, t) :: tail)
  | _, _ => .ok []

/-- The header-locating section of `read_shawzin_file` (lines 318-341 of
`encoder.py`), on the already-stripped content: returns the scale id and
the token content, or the `ValueError` for a digit header outside 1-9. -/
def scale_header_split (content : List Char) :
    Except String (ℕ × List Char) :=
  let lines := splitNL content
  let first_line := pyStrip (lines.headD [])
  match first_line.head? with
  | some c =>
    if isPyDigit c then
      let scale_id : ℕ := c.toNat - '0'.toNat
      if 1 ≤ scale_id ∧ scale_id ≤ 9 then
        let token_content :=
          if first_line.length = 1 then
            if lines.length > 1 then joinNL lines.tail else []
          else
            first_line.tail ++
              (if lines.length > 1 then '\n' :: joinNL lines.tail else [])
        .ok (scale_id, token_content)
      else .error "Scale ID must be 1-9"
    else .ok (1, content)
  | none => .ok (1, content)

/-- `read_shawzin_file` from `encoder.py`, modelled on the file's text
content (the `open`/`read` I/O is replaced by the `content` argument):
strip, locate the scale header, filter the token content to alphanumeric
characters and scan 3-character tokens. -/
def read_shawzin_file (content0 : List Char) : Except String (ℕ × List (Char × ℚ)) :=
  let content := pyStrip content0
  if content = [] then .error "Empty file"
  else do
    let (scale_id, token_content) ← scale_header_split content
    let notes ← parse_note_tokens (token_content.filter isPyAlnum) 0
    pure (scale_id, notes)

/-! ## pattern_detection.py

Python's `hash` on strings is randomized per process, so every definition
that uses it is parameterized by an arbitrary hash function `h` (strings
are modelled as `List Char` here as in the rest of the file). -/

/-- `rolling_hash` from `pattern_detection.py`: hash of every window of
the given size (parameterized by the string hash `h`, applied to the
concatenation `''.join(window)`). -/
def rolling_hash (h : List Char → ℤ) (tokens : List (List Char))
    (window_size : ℕ) : List ℤ :=
  if window_size > tokens.length then []
  else
    (List.range (tokens.length - window_size + 1)).map fun i =>
      h (pySlice tokens i (i + window_size)).flatten

/-- Append `v` to the bucket of `k` in an insertion-ordered association
list, as Python's `defaultdict(list)` does. -/
def bucket_add (groups : List (ℤ × List ℕ)) (k : ℤ) (v : ℕ) :
    List (ℤ × List ℕ) :=
  match groups with
  | [] => [(k, [v])]
  | (k0, vs) :: rest =>
    if k0 = k then (k0, vs ++ [v]) :: rest else (k0, vs) :: bucket_add rest k v

/-- Group window indices by hash value, preserving first-seen key order
(Python `defaultdict` iteration order). -/
def hash_groups_of (hashes : List ℤ) : List (ℤ × List ℕ) :=
  (hashes.enum.foldl (fun groups p => bucket_add groups p.2 p.1) [])

/-- The overlap test of `find_repeating_sequences`: does a window at
`idx` of length `len` overlap any already-accepted occurrence? -/
def overlaps_accepted (accepted : List (List ℕ × ℕ)) (idx len : ℕ) : Bool :=
  accepted.any fun p =>
    p.1.any fun existing_idx => idx < existing_idx + p.2 && idx + len > existing_idx

/-- Literal confirmation of one hash group, with the overlap check
against previously accepted patterns. -/
def confirm_group (tokens : List (List Char)) (pattern_len : ℕ)
    (accepted : List (List ℕ × ℕ)) (indices : List ℕ) : List ℕ :=
  match indices with
  | [] => []
  | i0 :: rest =>
    let base_pattern := pySlice tokens i0 (i0 + pattern_len)
    i0 :: rest.foldl (fun confirmed idx =>
      if pySlice tokens idx (idx + pattern_len) = base_pattern then
        if overlaps_accepted accepted idx pattern_len then confirmed
        else confirmed ++ [idx]
      else confirmed) []

/-- Process the hash groups of one pattern length, accumulating accepted
patterns. -/
def accept_groups (tokens : List (List Char)) (pattern_len min_occurrences : ℕ)
    (accepted : List (List ℕ × ℕ)) (groups : List (ℤ × List ℕ)) :
    List (List ℕ × ℕ) :=
  groups.foldl (fun accepted p =>
    if p.2.length ≥ min_occurrences then
      let confirmed := confirm_group tokens pattern_len accepted p.2
      if confirmed.length ≥ min_occurrences then accepted ++ [(confirmed, pattern_len)]
      else accepted
    else accepted) accepted

/-- `find_repeating_sequences` from `pattern_detection.py`: candidate
lengths from `min(len/min_occurrences, 50)` down to `min_len`, rolling
hash, literal confirmation, then a stable sort by savings (descending). -/
def find_repeating_sequences (h : List Char → ℤ) (tokens : List (List Char))
    (min_len : ℕ := 4) (min_occurrences : ℕ := 2) : List (List ℕ × ℕ) :=
  if tokens.length < min_len then []
  else
    let max_len := min (tokens.length / min_occurrences) 50
    -- `range(max_len, min_len - 1, -1)` = max_len, max_len-1, ..., min_len
    let lens := (List.range (max_len + 1 - min_len)).map fun k => max_len - k
    let patterns := lens.foldl (fun accepted pattern_len =>
      accept_groups tokens pattern_len min_occurrences accepted
        (hash_groups_of (rolling_hash h tokens pattern_len))) []
    List.insertionSort (fun p q => q.2 * q.1.length ≤ p.2 * p.1.length) patterns

/-- Replace the slice `xs[idx:idx+len]` by the single reference token,
Python slice assignment `compressed[idx:idx+length] = [ref_token]`. -/
def splice_ref (xs : List (List Char)) (idx len : ℕ) (ref_token : List Char) :
    List (List Char) :=
  xs.take idx ++ [ref_token] ++ xs.drop (idx + len)

/-- The inner replacement loop of `fold_repeats_into_refs` for one
pattern: find current literal occurrences, and if still frequent enough
replace them right-to-left and record the pattern. -/
def fold_one_pattern (tokens : List (List Char)) (min_occurrences : ℕ)
    (st : List (List Char) × List (List Char × List (List Char)) × ℕ)
    (pat : List ℕ × ℕ) :
    List (List Char) × List (List Char × List (List Char)) × ℕ :=
  let compressed := st.1
  let patterns_dict := st.2.1
  let pattern_id := st.2.2
  let length := pat.2
  let pattern_tokens := pySlice tokens (pat.1.headD 0) (pat.1.headD 0 + length)
  let current_pattern_id := 'P' :: (Nat.repr pattern_id).data
  let current_occurrences :=
    (List.range (compressed.length - length + 1)).filter fun i =>
      pySlice compressed i (i + length) = pattern_tokens
  if current_occurrences.length ≥ min_occurrences then
    let ref_token := '@' :: current_pattern_id
    let compressed1 := current_occurrences.reverse.foldl
      (fun cs idx => splice_ref cs idx length ref_token) compressed
    (compressed1, patterns_dict ++ [(current_pattern_id, pattern_tokens)], pattern_id + 1)
  else
    (compressed, patterns_dict, pattern_id)

/-- `fold_repeats_into_refs` from `pattern_detection.py`. -/
def fold_repeats_into_refs (h : List Char → ℤ) (tokens : List (List Char))
    (min_len : ℕ := 4) (min_occurrences : ℕ := 2) :
    List (List Char) × List (List Char × List (List Char)) :=
  if tokens = [] then ([], [])
  else
    let patterns := find_repeating_sequences h tokens min_len min_occurrences
    if patterns = [] then (tokens, [])
    else
      let st := patterns.foldl (fold_one_pattern tokens min_occurrences)
        (tokens, [], 1)
      (st.1, st.2.1)

/-- `expand_pattern_refs` from `pattern_detection.py`: single pass
substituting each known `@`-reference by its dictionary entry
(`token.startswith('@') and token[1:] in patterns_dict`). -/
def expand_pattern_refs (compressed_tokens : List (List Char))
    (patterns_dict : List (List Char × List (List Char))) : List (List Char) :=
  compressed_tokens.foldr (fun token expanded =>
    if token.take 1 = ['@'] ∧ (patterns_dict.lookup (token.drop 1)).isSome then
      ((patterns_dict.lookup (token.drop 1)).getD []) ++ expanded
    else token :: expanded) []

/-! ## midi_io.py -/

/-- `Event` from `midi_io.py` (times in `ℚ`, optional fields as `Option`). -/
structure Event where
  type : String
  note : Option ℤ
  time_sec : ℚ
  delta_sec : ℚ
  velocity : ℤ
  channel : ℤ
  track_index : ℤ
deriving Repr, DecidableEq, Inhabited

/-- Insert or update a key in an insertion-ordered association list, as
Python dict assignment does (an existing key keeps its position). -/
def dict_set {κ α : Type} [DecidableEq κ] (d : List (κ × α)) (k : κ) (v : α) :
    List (κ × α) :=
  match d with
  | [] => [(k, v)]
  | (k0, v0) :: rest =>
    if k0 = k then (k0, v) :: rest else (k0, v0) :: dict_set rest k v

/-- Remove a key from an association list, Python `dict.pop`. -/
def dict_pop {κ α : Type} [DecidableEq κ] (d : List (κ × α)) (k : κ) :
    List (κ × α) :=
  match d with
  | [] => []
  | (k0, v0) :: rest =>
    if k0 = k then rest else (k0, v0) :: dict_pop rest k

/-- The per-event body of `merge_note_events`: thread `(active, merged)`. -/
def merge_step (st : List ((Option ℤ × ℤ) × Event) × List Event) (event : Event) :
    List ((Option ℤ × ℤ) × Event) × List Event :=
  let note_key := (event.note, event.channel)
  if event.type = "note_on" then
    (dict_set st.1 note_key event, st.2)
  else if event.type = "note_off" then
    match st.1.lookup note_key with
    | some start_event =>
      let merged_event : Event :=
        ⟨"note", event.note, start_event.time_sec,
          event.time_sec - start_event.time_sec, start_event.velocity,
          event.channel, start_event.track_index⟩
      (dict_pop st.1 note_key, st.2 ++ [merged_event])
    | none => st
  else st

/-- `merge_note_events` from `midi_io.py`: pair note-on with note-off on
the same `(pitch, channel)`, close unmatched note-ons with the default
duration 0.1, and sort the result by time. -/
def merge_note_events (events : List Event) : List Event :=
  let st := events.foldl merge_step ([], [])
  let merged := st.2 ++ st.1.map fun p =>
    ⟨"note", p.2.note, p.2.time_sec, 1/10, p.2.velocity, p.2.channel,
      p.2.track_index⟩
  List.insertionSort (fun a b => a.time_sec ≤ b.time_sec) merged

/-! ## chord_handling.py -/

/-- The loop body of `group_simultaneous`: state is (finished groups,
current group, time of the current group's first event). -/
def group_step (eps : ℚ) (st : List (List Event) × List Event × ℚ)
    (event : Event) : List (List Event) × List Event × ℚ :=
  if ratAbs (event.time_sec - st.2.2) ≤ eps then
    (st.1, st.2.1 ++ [event], st.2.2)
  else
    (st.1 ++ [st.2.1], [event], event.time_sec)

/-- `group_simultaneous` from `chord_handling.py`: sort by time, then
append to the current group while the distance to the time of the
current group's first event stays within `eps`. -/
def group_simultaneous (events : List Event) (eps : ℚ := 1/1000) :
    List (List Event) :=
  match pySortByKey Event.time_sec events with
  | [] => []
  | e0 :: rest =>
    let st := rest.foldl (group_step eps) ([], [e0], e0.time_sec)
    st.1 ++ [st.2.1]

/-- `analyze_chord_structure` from `chord_handling.py`, reduced to the
fields `reduce_chord` reads: bass, melody, and the last-found third and
fifth above the bass (only analyzed for chords of at least 3 notes). -/
def analyze_chord_structure (notes : List ℤ) :
    ℤ × ℤ × Option ℤ × Option ℤ :=
  let sorted_notes := pySortByKey (fun n : ℤ => (n : ℚ)) notes
  let bass := sorted_notes.headD 0
  let melody := sorted_notes.getLastD 0
  let tf :=
    if sorted_notes.length ≥ 3 then
      sorted_notes.foldl (fun (tf : Option ℤ × Option ℤ) note =>
        let interval := Int.fmod (note - bass) 12
        if interval = 3 ∨ interval = 4 then (some note, tf.2)
        else if interval = 7 then (tf.1, some note)
        else tf) (none, none)
    else (none, none)
  (bass, melody, tf.1, tf.2)

/-- The candidate-filling loop of `reduce_chord`:
`for note in candidates[:remaining_slots]: if note not in selected: append`. -/
def fill_candidates (selected0 : List ℤ) (candidates : List ℤ) (slots : ℕ) :
    List ℤ :=
  (candidates.take slots).foldl
    (fun sel note => if note ∉ sel then sel ++ [note] else sel) selected0

/-- `reduce_chord` from `chord_handling.py` with the `'reduce'` policy. -/
def reduce_chord (notes_in_chord : List ℤ) (max_notes : ℕ := 3) : List ℤ :=
  if notes_in_chord.length ≤ max_notes then notes_in_chord
  else
    let a := analyze_chord_structure notes_in_chord
    let bass := a.1
    let melody := a.2.1
    let selected0 := if melody ≠ bass then [bass, melody] else [bass]
    let remaining_slots : ℤ := (max_notes : ℤ) - selected0.length
    let selected :=
      if remaining_slots > 0 then
        let candidates :=
          (match a.2.2.1 with | some t => [t] | none => []) ++
          (match a.2.2.2 with | some f => [f] | none => [])
        let candidates :=
          if candidates = [] then
            let middle_notes := (pySortByKey (fun n : ℤ => (n : ℚ)) notes_in_chord).filter
              fun n => n ∉ selected0
            pySortByKey (fun n : ℤ => ratAbs ((n : ℚ) - ((bass : ℚ) + (melody : ℚ)) / 2)) middle_notes
          else candidates
        fill_candidates selected0 candidates remaining_slots.toNat
      else selected0
    pySortByKey (fun n : ℤ => (n : ℚ)) selected

/-- The grouping rule stated by the specification, for comparison with
`group_simultaneous`: sort by time, then start a new group whenever the
gap to the **previous event** (not the group's first event) exceeds
`eps`.  Written from the spec's words, not from the source. -/
def group_by_prev_gap_spec (events : List Event) (eps : ℚ) :
    List (List Event) :=
  match pySortByKey Event.time_sec events with
  | [] => []
  | e0 :: rest =>
    let st := rest.foldl (fun (st : List (List Event) × List Event × ℚ) event =>
      if ratAbs (event.time_sec - st.2.2) ≤ eps then
        (st.1, st.2.1 ++ [event], event.time_sec)
      else
        (st.1 ++ [st.2.1], [event], event.time_sec))
      ([], [e0], e0.time_sec)
    st.1 ++ [st.2.1]

/-- The grouping rule the code actually implements, written from the
amended spec's words as a structural recursion: after sorting, a group
is the maximal run of events within `eps` of the **group's first event**
(the anchor), and a new group starts exactly when that gap is exceeded. -/
def group_anchored (events : List Event) (eps : ℚ) : List (List Event) :=
  match events with
  | [] => []
  | e0 :: rest =>
    (e0 :: rest.takeWhile (fun e => ratAbs (e.time_sec - e0.time_sec) ≤ eps)) ::
      group_anchored
        (rest.dropWhile (fun e => ratAbs (e.time_sec - e0.time_sec) ≤ eps)) eps
termination_by events.length
decreasing_by
  simp only [List.length_cons]
  exact Nat.lt_succ_of_le (List.dropWhile_sublist _).length_le

/-- The running-group state of the `group_simultaneous` loop, unrolled as
a recursion on the remaining events (`cur` is the open group, `t` its
anchor time). -/
def consume_groups (eps : ℚ) (cur : List Event) (t : ℚ) :
    List Event → List (List Event)
  | [] => [cur]
  | e :: rest =>
    if ratAbs (e.time_sec - t) ≤ eps then consume_groups eps (cur ++ [e]) t rest
    else cur :: consume_groups eps [e] e.time_sec rest

/-! ## key_detection.py -/

/-- `SCALE_TEMPLATES` from `key_detection.py`, as ascending pitch-class
lists (the Python sets contain exactly these elements; every use of a
template — summing, counting, size — is order-insensitive over `ℚ`). -/
def SCALE_TEMPLATES : ℕ → List ℕ
  | 1 => [0, 3, 5, 7, 10]
  | 2 => [0, 2, 4, 5, 7, 9, 11]
  | 3 => [0, 1, 2, 3, 4, 5, 6, 7, 8, 9, 10, 11]
  | 4 => [0, 2, 3, 5, 7, 8, 10]
  | 5 => [0, 2, 3, 5, 7, 9, 10]
  | 6 => [0, 1, 3, 5, 7, 8, 10]
  | 7 => [0, 2, 4, 7, 9]
  | 8 => [0, 2, 5, 7, 9]
  | 9 => [0, 2, 4, 6, 8, 10]
  | _ => []

/-- `build_pitch_class_histogram` from `key_detection.py`: 12 buckets of
`duration × velocity/127` weight, normalized to sum 1 when nonzero. -/
def build_pitch_class_histogram (events : List Event) : List ℚ :=
  let st := events.foldl (fun (st : List ℚ × ℚ) event =>
    match event.note with
    | some note =>
      if event.type = "note_on" ∨ event.type = "note" then
        let pitch_class := (Int.fmod note 12).toNat
        let duration := event.delta_sec
        let velocity : ℚ := if event.velocity > 0 then (event.velocity : ℚ) else 80
        let weight := duration * (velocity / 127)
        (st.1.set pitch_class (st.1.getD pitch_class 0 + weight), st.2 + weight)
      else st
    | none => st) (List.replicate 12 0, 0)
  if st.2 > 0 then st.1.map (fun count => count / st.2) else st.1

/-- `get_scale_template` from `key_detection.py`: transpose a template to
a root (membership set, as an ascending list of pitch classes). -/
def get_scale_template (scale_id : ℕ) (root : ℕ) : List ℕ :=
  let base := if (SCALE_TEMPLATES scale_id) = [] then List.range 12
    else SCALE_TEMPLATES scale_id
  List.insertionSort (fun a b => a ≤ b) (base.map fun pc => (pc + root) % 12)

/-- `score_key` from `key_detection.py`: coverage, out-of-scale penalty,
specificity bonus, completeness bonus and top-3 dominance bonus. -/
def score_key (histogram : List ℚ) (scale_template : List ℕ) : ℚ :=
  let in_scale_score := (scale_template.map fun pc => histogram.getD pc 0).sum
  let out_of_scale_score :=
    (((List.range 12).filter fun pc => pc ∉ scale_template).map
      fun pc => histogram.getD pc 0).sum
  let scale_size := scale_template.length
  let specificity_bonus : ℚ := ((12 : ℚ) - scale_size) / 12 * (3/10)
  let used_scale_notes :=
    (scale_template.filter fun pc => histogram.getD pc 0 > 1/100).length
  let completeness : ℚ :=
    if scale_size > 0 then (used_scale_notes : ℚ) / scale_size else 0
  let scale_weights := List.insertionSort (fun a b : ℚ => b ≤ a)
    (scale_template.map fun pc => histogram.getD pc 0)
  let top_3_weight := (scale_weights.take 3).sum
  let base_score := in_scale_score - (8/10) * out_of_scale_score
  let final_score := base_score + (2/10) * completeness + (1/10) * top_3_weight +
    specificity_bonus
  ratMax 0 final_score

/-- Descending lexicographic test on `(score, root, scale_id)` triples,
the comparison Python's `list.sort(reverse=True)` applies in
`detect_best_scale`. -/
def cand_ge (a b : ℚ × ℕ × ℕ) : Bool :=
  b.1 < a.1 ∨ (b.1 = a.1 ∧ (b.2.1 < a.2.1 ∨ (b.2.1 = a.2.1 ∧ b.2.2 ≤ a.2.2)))

/-- `detect_best_scale` from `key_detection.py`: score all 9×12
candidates, sort descending, and break near-ties (within 0.01) by root
emphasis when the tie set is small, else by fixed scale preference.  The
source reads `events[0].note` / `events[-1].note` without a `None`
check; the model reads 0 for a missing pitch (that path is never hit with
pitched events). -/
def detect_best_scale (events : List Event) : ℕ × ℕ × ℚ :=
  let candidate_scales := (List.range 9).map (· + 1)
  let histogram := build_pitch_class_histogram events
  let best_candidates := candidate_scales.flatMap fun scale_id =>
    (List.range 12).map fun root =>
      ((score_key histogram (get_scale_template scale_id root) : ℚ), root, scale_id)
  let best_candidates :=
    List.insertionSort (fun a b => cand_ge a b = true) best_candidates
  match best_candidates with
  | [] => (0, 0, 0)
  | best :: _ =>
    let best_score := best.1
    let tied_candidates := (best_candidates.filter fun c =>
      ratAbs (c.1 - best_score) < 1/100).map fun c => (c.2.1, c.2.2)
    if tied_candidates.length > 1 then
      if tied_candidates.length ≤ 4 then
        let emphasis := fun (rs : ℕ × ℕ) =>
          let e0 := histogram.getD (rs.1 % 12) 0
          let e1 := e0 + (if events ≠ [] ∧
            (Int.fmod ((events.headD default).note.getD 0) 12).toNat = rs.1
            then 1/5 else 0)
          e1 + (if events ≠ [] ∧
            (Int.fmod ((events.getLastD default).note.getD 0) 12).toNat = rs.1
            then (1:ℚ)/5 else 0)
        let best_candidate := tied_candidates.foldl
          (fun acc c => if emphasis acc < emphasis c then c else acc)
          (tied_candidates.headD (0, 0))
        (best_candidate.1, best_candidate.2, best_score)
      else
        let scale_preferences := [2, 4, 5, 6, 7, 1, 3, 8, 9]
        let preferred := scale_preferences.findSome? fun preferred_scale =>
          tied_candidates.find? fun rs => rs.2 = preferred_scale
        match preferred with
        | some rs => (rs.1, rs.2, best_score)
        | none =>
          ((tied_candidates.headD (0, 0)).1, (tied_candidates.headD (0, 0)).2,
            best_score)
    else
      (best.2.1, best.2.2, best.1)

/-! ## mapper.py -/

/-- The closest-pitch scan of `map_note_to_shawzin`: exhaustive scan of
the playable table, first minimum wins (matching the strict `<` update),
`none` on an empty table. -/
def closest_entry (note_midi : ℤ) (playable_table : List (ℤ × Char)) :
    Option (ℤ × Char × ℤ) :=
  playable_table.foldl (fun (acc : Option (ℤ × Char × ℤ)) p =>
    let distance := intAbs (p.1 - note_midi)
    match acc with
    | none => some (p.1, p.2, distance)
    | some b => if distance < b.2.2 then some (p.1, p.2, distance) else acc) none

/-- The octave-shift computation of `map_note_to_shawzin` on the signed
interval `best_midi - note_midi`. -/
def octave_shift_of (d : ℤ) : ℤ :=
  let octave_shift := Int.fdiv d 12
  if Int.fmod d 12 > 6 then octave_shift + 1
  else if Int.fmod d 12 < -6 then octave_shift - 1
  else octave_shift

/-- `map_note_to_shawzin` from `mapper.py`: closest-pitch scan, then the
octave shift with the >6-semitone wraparound correction.  `none` models
the `ValueError` on an empty table. -/
def map_note_to_shawzin (note_midi : ℤ) (playable_table : List (ℤ × Char)) :
    Option (Char × ℤ × ℤ) :=
  match closest_entry note_midi playable_table with
  | none => none
  | some (best_midi, best_char, _) =>
    some (best_char, best_midi, octave_shift_of (best_midi - note_midi))

/-! ## Derived notions used to state the claims -/

/-- The token content that `read_shawzin_file` extracts after the scale
header (empty when header splitting fails). -/
def token_content_of (content0 : List Char) : List Char :=
  match scale_header_split (pyStrip content0) with
  | .ok p => p.2
  | .error _ => []

/-- The tick count that `time_to_shawzin_time` assigns to a delta under
the default settings: `max(0, round(delta / 0.0625))`. -/
def tick_count (d : ℚ) : ℤ :=
  intMax 0 (pyRound (d / (1/16)))

/-- A well-behaved consecutive time pair for the default codec settings:
nondecreasing, below the 64-measure wraparound, and whose measure and
tick characters stay inside the alphanumeric part of the time alphabet
(indices below 62, avoiding `'+'` and `'/'`). -/
def good_delta (a b : ℚ) : Prop :=
  a ≤ b ∧ tick_count (b - a) < 3968 ∧ Int.fmod (tick_count (b - a)) 64 < 62

/-- The token stream that the single-chunk encoding loop emits, with
delta times chained from `last`. -/
def tokens_from (settings : EncodingSettings) (last : ℚ) :
    List ShawzinNote → List (List Char)
  | [] => []
  | e :: es =>
    event_to_shawzin_token e.character (e.time_sec - last) settings ::
      tokens_from settings e.time_sec es

/-- Consecutive differences of a time list, starting from `prev`. -/
def deltas_from (prev : ℚ) : List ℚ → List ℚ
  | [] => []
  | t :: ts => (t - prev) :: deltas_from t ts

/-- The absolute-time list is reproduced within one tick per step, in the
sense of consecutive deltas (statement helper for the codec claims). -/
def deltas_close (orig decoded : List ℚ) : Prop :=
  List.Forall₂ (fun d dd => |d - dd| ≤ 1/16) (deltas_from 0 orig) (deltas_from 0 decoded)

/-- A chunk that begins with a single-digit scale header (digits 1-9). -/
def chunk_head_ok (c : List Char) : Prop :=
  ∃ s r, 1 ≤ s ∧ s ≤ 9 ∧ c = Nat.digitChar s :: r

/-- The shape of every chunk after the first: its own single-digit
header on the first line, and a first token whose two time characters
encode a delta of zero (the reset time origin). -/
def later_chunk_ok (settings : EncodingSettings) (c : List Char) : Prop :=
  ∃ s ch r, 1 ≤ s ∧ s ≤ 9 ∧
    c = Nat.digitChar s :: '\n' :: ch ::
      (time_to_shawzin_time 0 settings.seconds_per_measure
        settings.seconds_per_tick ++ r)

/-- The loop invariant of the chunking loop in `events_to_shawzin_text`. -/
def EncInv (max_notes : ℕ) (settings : EncodingSettings) (st : EncSt) : Prop :=
  st.line ≠ [] ∧
  chunk_head_ok (joinNL (st.lines ++ [st.line])) ∧
  (∀ c ∈ st.chunks, chunk_head_ok c) ∧
  (∀ c ∈ st.chunks.tail, later_chunk_ok settings c) ∧
  (st.chunks ≠ [] → later_chunk_ok settings (joinNL (st.lines ++ [st.line]))) ∧
  st.notes_in_chunk ≤ max_notes

/-- Provenance of one output note of `merge_note_events` (statement
helper for the merge claim): the note has type `"note"`, a nonnegative
duration (carried in the `delta_sec` slot), and originates from a
note-on of the input — same pitch, channel, start time, velocity and
track — whose duration either comes from a matching note-off of the
input on the same `(pitch, channel)` key, or is the 0.1-second default
used for a note-on left unmatched at the end of the stream. -/
def merged_note_ok (events : List Event) (m : Event) : Prop :=
  m.type = "note" ∧ 0 ≤ m.delta_sec ∧
  ∃ on_ev, on_ev ∈ events ∧ on_ev.type = "note_on" ∧
    on_ev.note = m.note ∧ on_ev.channel = m.channel ∧
    on_ev.time_sec = m.time_sec ∧ on_ev.velocity = m.velocity ∧
    on_ev.track_index = m.track_index ∧
    ((∃ off_ev, off_ev ∈ events ∧ off_ev.type = "note_off" ∧
        off_ev.note = on_ev.note ∧ off_ev.channel = on_ev.channel ∧
        m.delta_sec = off_ev.time_sec - on_ev.time_sec) ∨
      m.delta_sec = 1/10)

/-- Relation between the state before and after a trigger-free run of the
encoding loop (default settings, `keep_offsets = True`): the chunk list is
untouched, the current line stays nonempty, the flattened line text grows
by exactly the emitted tokens, the first line is only ever extended, the
note counter advances by one per event and `last_time` tracks the last
event. -/
def RunRel (evs : List ShawzinNote) (st stf : EncSt) : Prop :=
  stf.chunks = st.chunks ∧
  stf.line ≠ [] ∧
  (stf.lines ++ [stf.line]).flatten =
    (st.lines ++ [st.line]).flatten ++
      (tokens_from default_settings st.last_time evs).flatten ∧
  (∃ tl, (stf.lines ++ [stf.line]).headD [] =
    (st.lines ++ [st.line]).headD [] ++ tl) ∧
  stf.notes_in_chunk = st.notes_in_chunk + evs.length ∧
  stf.last_time = (evs.map ShawzinNote.time_sec).getLastD st.last_time

/-- A note event (Scenario A uses only pitch, time, velocity, duration). -/
def scen_event (p : ℤ) (t : ℚ) : Event :=
  ⟨"note", some p, t, 1/4, 100, 0, 0⟩

/-- Scenario A input: the eight-note C-major scale 60..72, equal
velocities and durations. -/
def scenario_a : List Event :=
  [scen_event 60 0, scen_event 62 1, scen_event 64 2, scen_event 65 3,
   scen_event 67 4, scen_event 69 5, scen_event 71 6, scen_event 72 7]

/-- A three-note input whose per-delta rounding errors accumulate past
one tick (counterexample input for the round-trip claim). -/
def drift_notes : List ShawzinNote :=
  [⟨'1', 3/100, 1, 60, 60, 1, 0⟩, ⟨'1', 6/100, 1, 60, 60, 1, 0⟩,
   ⟨'1', 9/100, 1, 60, 60, 1, 0⟩]

/-- Three events 0.8 ms apart: consecutive gaps stay within the 1 ms
epsilon but the third event is 1.6 ms from the first (counterexample
input for the grouping claim). -/
def close_events : List Event :=
  [scen_event 60 0, scen_event 62 (1/1250), scen_event 64 (2/1250)]

/-! ## Bridge lemmas for the kernel-evaluable primitives -/

theorem ratAbs_eq (q : ℚ) : ratAbs q = |q| := by
  unfold ratAbs
  split
  · exact (abs_of_neg (by assumption)).symm
  · exact (abs_of_nonneg (not_lt.mp (by assumption))).symm

theorem intAbs_eq (n : ℤ) : intAbs n = |n| := by
  unfold intAbs
  split
  · exact (abs_of_neg (by assumption)).symm
  · exact (abs_of_nonneg (not_lt.mp (by assumption))).symm

theorem intMax_eq (a b : ℤ) : intMax a b = max a b := by
  unfold intMax
  rcases le_total a b with h | h <;> split <;> omega

theorem ratMax_eq (a b : ℚ) : ratMax a b = max a b := by
  unfold ratMax
  split
  · exact (max_eq_right (by assumption)).symm
  · exact (max_eq_left (le_of_not_le (by assumption))).symm

theorem pyRound_close (q : ℚ) : |(pyRound q : ℚ) - q| ≤ 1/2 := by
  unfold pyRound
  dsimp only
  have hfl : (⌊q⌋ : ℚ) ≤ q := Int.floor_le q
  have hfu : q < ⌊q⌋ + 1 := Int.lt_floor_add_one q
  split_ifs with h1 h2 h3
  · rw [abs_of_nonpos (by linarith)]
    linarith
  · rw [abs_of_nonneg (by push_cast; linarith)]
    push_cast
    linarith
  · rw [abs_of_nonpos (by linarith)]
    linarith
  · rw [abs_of_nonneg (by push_cast; linarith)]
    push_cast
    linarith

theorem pyRound_nonneg (q : ℚ) (h : 0 ≤ q) : 0 ≤ pyRound q := by
  unfold pyRound
  dsimp only
  have hfl : (0 : ℤ) ≤ ⌊q⌋ := Int.le_floor.mpr (by exact_mod_cast h)
  split_ifs <;> omega

/-! ## Stable-sort helper lemmas -/

theorem pySortByKey_perm {α : Type} (key : α → ℚ) (xs : List α) :
    (pySortByKey key xs).Perm xs :=
  List.perm_insertionSort _ xs

theorem pySortByKey_pairwise {α : Type} (key : α → ℚ) (xs : List α) :
    List.Pairwise (fun a b => key a ≤ key b) (pySortByKey key xs) := by
  haveI : IsTotal α (fun a b => key a ≤ key b) := ⟨fun a b => le_total _ _⟩
  haveI : IsTrans α (fun a b => key a ≤ key b) := ⟨fun _ _ _ => le_trans⟩
  exact List.sorted_insertionSort _ xs

theorem pairwise_headD {α : Type} {R : α → α → Prop} {l : List α}
    (h : List.Pairwise R l) {x : α} (hx : x ∈ l) (d : α) :
    x = l.headD d ∨ R (l.headD d) x := by
  cases l with
  | nil => simp at hx
  | cons a t =>
    rcases List.mem_cons.mp hx with rfl | hxt
    · exact Or.inl rfl
    · exact Or.inr ((List.pairwise_cons.mp h).1 x hxt)

theorem pairwise_getLastD {α : Type} {R : α → α → Prop} {l : List α}
    (h : List.Pairwise R l) {x : α} (hx : x ∈ l) (d : α) :
    x = l.getLastD d ∨ R x (l.getLastD d) := by
  have h1 : List.Pairwise (fun a b => R b a) l.reverse :=
    List.pairwise_reverse.mpr h
  have hx1 : x ∈ l.reverse := List.mem_reverse.mpr hx
  have hh := pairwise_headD h1 hx1 d
  have he : l.reverse.headD d = l.getLastD d := by
    rw [List.headD_eq_head?, List.head?_reverse, List.getLastD_eq_getLast?]
  rw [he] at hh
  exact hh

theorem headD_mem_of_ne_nil {α : Type} {l : List α} (h : l ≠ []) (d : α) :
    l.headD d ∈ l := by
  cases l with
  | nil => exact absurd rfl h
  | cons a t => exact List.mem_cons_self a t

theorem getLastD_mem_of_ne_nil {α : Type} {l : List α} (h : l ≠ []) (d : α) :
    l.getLastD d ∈ l := by
  have h1 : l.reverse ≠ [] := by
    intro hc
    exact h (by simpa using congrArg List.reverse hc)
  have := headD_mem_of_ne_nil h1 d
  have he : l.reverse.headD d = l.getLastD d := by
    rw [List.headD_eq_head?, List.head?_reverse, List.getLastD_eq_getLast?]
  rw [he] at this
  exact List.mem_reverse.mp this

/-! ## C9 — octave shift of `map_note_to_shawzin` -/

/-- C9: for every source pitch and nonempty playable table, the octave
shift returned by `map_note_to_shawzin` is the floor of
`(resolved - source)/12` corrected by one when the residual interval
exceeds 6 semitones, it moves the source within 6 semitones of
`12 × shift`, and it is minimal in magnitude among all integer octave
counts. -/
theorem map_note_to_shawzin_octave_shift (note_midi : ℤ)
    (table : List (ℤ × Char)) (c : Char) (best shift : ℤ)
    (h : map_note_to_shawzin note_midi table = some (c, best, shift)) :
    shift = Int.fdiv (best - note_midi) 12 +
      (if 6 < Int.fmod (best - note_midi) 12 then 1 else 0) ∧
    |best - note_midi - 12 * shift| ≤ 6 ∧
    ∀ k : ℤ, |best - note_midi - 12 * shift| ≤ |best - note_midi - 12 * k| := by
  have key : ∀ d : ℤ, octave_shift_of d =
      Int.fdiv d 12 + (if 6 < Int.fmod d 12 then 1 else 0) ∧
      |d - 12 * octave_shift_of d| ≤ 6 ∧
      ∀ k : ℤ, |d - 12 * octave_shift_of d| ≤ |d - 12 * k| := by
    intro d
    have hfd : Int.fdiv d 12 = d / 12 := Int.fdiv_eq_ediv _ (by norm_num)
    have hfm : Int.fmod d 12 = d % 12 := Int.fmod_eq_emod _ (by norm_num)
    have hr0 : 0 ≤ d % 12 := Int.emod_nonneg d (by norm_num)
    unfold octave_shift_of
    dsimp only
    have hneg : ¬ (Int.fmod d 12 < -6) := by rw [hfm]; omega
    rw [if_neg hneg]
    simp only [hfd, hfm]
    refine ⟨by split_ifs <;> omega, ?_, ?_⟩
    · rcases abs_cases (d - 12 * (if d % 12 > 6 then d / 12 + 1 else d / 12)) with
        ⟨ha, _⟩ | ⟨ha, _⟩ <;> rw [ha] <;> split_ifs with hsp <;> omega
    · intro k
      rcases abs_cases (d - 12 * (if d % 12 > 6 then d / 12 + 1 else d / 12)) with
        ⟨ha, _⟩ | ⟨ha, _⟩ <;>
      rcases abs_cases (d - 12 * k) with ⟨hb2, _⟩ | ⟨hb2, _⟩ <;>
      rw [ha, hb2] <;> split_ifs at * <;> omega
  unfold map_note_to_shawzin at h
  rcases hce : closest_entry note_midi table with _ | b
  · rw [hce] at h
    exact absurd h (by simp)
  · rw [hce] at h
    obtain ⟨bm, bc, dist⟩ := b
    simp only [Option.some.injEq, Prod.mk.injEq] at h
    obtain ⟨hc, hb, hs⟩ := h
    subst hc
    subst hb
    subst hs
    exact key (bm - note_midi)

/-- Witness for C9 at pitch 61 against the concrete three-entry table:
the resolved pitch is 60 and the returned shift 0 beats the octave
shift 3 in magnitude. -/
theorem map_note_to_shawzin_octave_shift_witness :
    |(60 : ℤ) - 61 - 12 * 0| ≤ 6 ∧
    |(60 : ℤ) - 61 - 12 * 0| ≤ |(60 : ℤ) - 61 - 12 * 3| := by
  have h := map_note_to_shawzin_octave_shift 61 [(48, 'z'), (60, '1'), (64, 'q')]
    '1' 60 0 (by decide)
  exact ⟨h.2.1, h.2.2 3⟩

/-! ## C5 — chord reduction keeps bass and melody within the bound -/

theorem mem_fill_candidates {x : ℤ} (selected0 candidates : List ℤ)
    (slots : ℕ) (hx : x ∈ selected0) :
    x ∈ fill_candidates selected0 candidates slots := by
  unfold fill_candidates
  generalize candidates.take slots = l
  induction l generalizing selected0 with
  | nil => exact hx
  | cons a t ih =>
    simp only [List.foldl_cons]
    apply ih
    split
    · exact List.mem_append_left _ hx
    · exact hx

theorem length_fill_candidates (selected0 candidates : List ℤ) (slots : ℕ) :
    (fill_candidates selected0 candidates slots).length ≤
      selected0.length + slots := by
  unfold fill_candidates
  have key : ∀ (l sel : List ℤ),
      (l.foldl (fun sel note => if note ∉ sel then sel ++ [note] else sel)
        sel).length ≤ sel.length + l.length := by
    intro l
    induction l with
    | nil => intro sel; simp
    | cons a t ih =>
      intro sel
      simp only [List.foldl_cons]
      refine le_trans (ih _) ?_
      split <;>
        (simp only [List.length_append, List.length_cons, List.length_nil]; omega)
  refine le_trans (key _ _) ?_
  have := List.length_take_le slots candidates
  omega

/-- C5 (amended): for every chord strictly larger than `max_notes` with
`max_notes ≥ 2`, the reduce policy keeps the chord's lowest and highest
pitches and returns at most `max_notes` pitches.  (For `max_notes = 1`
the bound fails, see the counterexample.) -/
theorem reduce_chord_bass_melody_bound (notes : List ℤ) (max_notes : ℕ)
    (hmax : 2 ≤ max_notes) (hlen : max_notes < notes.length) :
    ∃ bass melody, bass ∈ notes ∧ melody ∈ notes ∧
      (∀ n ∈ notes, bass ≤ n) ∧ (∀ n ∈ notes, n ≤ melody) ∧
      bass ∈ reduce_chord notes max_notes ∧
      melody ∈ reduce_chord notes max_notes ∧
      (reduce_chord notes max_notes).length ≤ max_notes := by
  have hne : notes ≠ [] := by
    intro hc
    rw [hc] at hlen
    simp at hlen
  have hnotle : ¬ (notes.length ≤ max_notes) := by omega
  set sorted := pySortByKey (fun n : ℤ => (n : ℚ)) notes with hsorted
  have hperm : sorted.Perm notes := pySortByKey_perm _ _
  have hsne : sorted ≠ [] := by
    intro hc
    exact hne (List.Perm.eq_nil (hc ▸ hperm).symm)
  have hpw := pySortByKey_pairwise (fun n : ℤ => (n : ℚ)) notes
  rw [← hsorted] at hpw
  set bass := sorted.headD 0 with hbass
  set melody := sorted.getLastD 0 with hmelody
  have hbass_mem : bass ∈ notes :=
    hperm.mem_iff.mp (headD_mem_of_ne_nil hsne 0)
  have hmel_mem : melody ∈ notes :=
    hperm.mem_iff.mp (getLastD_mem_of_ne_nil hsne 0)
  have hbass_le : ∀ n ∈ notes, bass ≤ n := by
    intro n hn
    have hn1 : n ∈ sorted := hperm.mem_iff.mpr hn
    rcases pairwise_headD hpw hn1 0 with h | h
    · exact le_of_eq (h ▸ rfl)
    · exact_mod_cast h
  have hle_mel : ∀ n ∈ notes, n ≤ melody := by
    intro n hn
    have hn1 : n ∈ sorted := hperm.mem_iff.mpr hn
    rcases pairwise_getLastD hpw hn1 0 with h | h
    · exact le_of_eq (h ▸ rfl)
    · exact_mod_cast h
  have hA1 : (analyze_chord_structure notes).1 = bass := rfl
  have hA2 : (analyze_chord_structure notes).2.1 = melody := rfl
  refine ⟨bass, melody, hbass_mem, hmel_mem, hbass_le, hle_mel, ?_, ?_, ?_⟩ <;>
  · unfold reduce_chord
    rw [if_neg hnotle]
    dsimp only
    rw [hA1, hA2]
    set selected0 : List ℤ := if melody ≠ bass then [bass, melody] else [bass]
      with hsel0
    have hbass_sel : bass ∈ selected0 := by
      rw [hsel0]
      split <;> simp
    have hmel_sel : melody ∈ selected0 := by
      rw [hsel0]
      split
      · simp
      · simp only [ne_eq, not_not] at *
        rename_i hmb
        rw [hmb]
        simp
    have hsel0_len : selected0.length ≤ 2 := by
      rw [hsel0]
      split <;> simp
    set sel : List ℤ :=
      (if (max_notes : ℤ) - selected0.length > 0 then
        fill_candidates selected0 _ ((max_notes : ℤ) - selected0.length).toNat
      else selected0) with hsel
    have hmem_sel : ∀ x ∈ selected0, x ∈ sel := by
      intro x hx
      rw [hsel]
      split
      · exact mem_fill_candidates _ _ _ hx
      · exact hx
    have hlen_sel : sel.length ≤ max_notes := by
      rw [hsel]
      split
      · refine le_trans (length_fill_candidates _ _ _) ?_
        omega
      · omega
    have hperm2 : (pySortByKey (fun n : ℤ => (n : ℚ)) sel).Perm sel :=
      pySortByKey_perm _ _
    first
    | exact hperm2.mem_iff.mpr (hmem_sel _ hbass_sel)
    | exact hperm2.mem_iff.mpr (hmem_sel _ hmel_sel)
    | exact le_trans (le_of_eq hperm2.length_eq) hlen_sel

/-- Witness for C5 at the chord `[60, 64, 67, 72]` with `max_notes = 3`
(Scenario B): the result keeps 60 and 72 and has at most 3 notes. -/
theorem reduce_chord_bass_melody_bound_witness :
    (60 : ℤ) ∈ reduce_chord [60, 64, 67, 72] 3 ∧
    (72 : ℤ) ∈ reduce_chord [60, 64, 67, 72] 3 ∧
    (reduce_chord [60, 64, 67, 72] 3).length ≤ 3 := by
  obtain ⟨b, m, hbm, hmm, hble, hlem, hbin, hmin, hlen⟩ :=
    reduce_chord_bass_melody_bound [60, 64, 67, 72] 3 (by norm_num) (by norm_num)
  have hb : b = 60 := by
    have h1 := hble 60 (by decide)
    simp only [List.mem_cons, List.not_mem_nil, or_false] at hbm
    rcases hbm with rfl | rfl | rfl | rfl <;> omega
  have hm : m = 72 := by
    have h1 := hlem 72 (by decide)
    simp only [List.mem_cons, List.not_mem_nil, or_false] at hmm
    rcases hmm with rfl | rfl | rfl | rfl <;> omega
  exact ⟨hb ▸ hbin, hm ▸ hmin, hlen⟩

/-- C5 counterexample: with `max_chord_notes = 1` the reduce policy keeps
both the bass and the melody of `[60, 72]`, so the result has 2 notes,
exceeding the bound the claim states. -/
theorem reduce_chord_max_one_counterexample :
    reduce_chord [60, 72] 1 = [60, 72] ∧
    ¬ ((reduce_chord [60, 72] 1).length ≤ 1) := by
  constructor
  · decide
  · decide

/-! ## C6 — near-simultaneous grouping compares against the group anchor -/

theorem consume_groups_spec (eps : ℚ) :
    ∀ (rest cur : List Event) (t : ℚ),
    consume_groups eps cur t rest =
      (cur ++ rest.takeWhile (fun e => ratAbs (e.time_sec - t) ≤ eps)) ::
        group_anchored
          (rest.dropWhile (fun e => ratAbs (e.time_sec - t) ≤ eps)) eps := by
  intro rest
  induction rest with
  | nil =>
    intro cur t
    simp [consume_groups, group_anchored]
  | cons e rest ih =>
    intro cur t
    by_cases hP : ratAbs (e.time_sec - t) ≤ eps
    · rw [consume_groups, if_pos hP, ih,
        List.takeWhile_cons_of_pos (by simpa using hP),
        List.dropWhile_cons_of_pos (by simpa using hP)]
      simp
    · rw [consume_groups, if_neg hP, ih,
        List.takeWhile_cons_of_neg (by simpa using hP),
        List.dropWhile_cons_of_neg (by simpa using hP)]
      simp [group_anchored]

theorem fold_group_eq_consume (eps : ℚ) :
    ∀ (rest : List Event) (gs : List (List Event)) (cur : List Event) (t : ℚ),
    (rest.foldl (group_step eps) (gs, cur, t)).1 ++
      [(rest.foldl (group_step eps) (gs, cur, t)).2.1] =
      gs ++ consume_groups eps cur t rest := by
  intro rest
  induction rest with
  | nil =>
    intro gs cur t
    simp [consume_groups]
  | cons e rest ih =>
    intro gs cur t
    by_cases hP : ratAbs (e.time_sec - t) ≤ eps
    · simp only [List.foldl_cons, group_step, if_pos hP]
      rw [ih gs (cur ++ [e]) t, consume_groups, if_pos hP]
    · simp only [List.foldl_cons, group_step, if_neg hP]
      rw [ih (gs ++ [cur]) [e] e.time_sec, consume_groups, if_neg hP]
      simp

/-- C6 (amended): grouping first sorts the events by time, and then
starts a new group exactly when the gap between an event and the
**first event of the current group** (the anchor) exceeds epsilon —
not the gap to the immediately previous event, as the claim states:
`group_simultaneous` coincides with the anchored grouping
`group_anchored` of the sorted list. -/
theorem group_simultaneous_eq_anchored (events : List Event) (eps : ℚ) :
    group_simultaneous events eps =
      group_anchored (pySortByKey Event.time_sec events) eps := by
  unfold group_simultaneous
  cases hs : pySortByKey Event.time_sec events with
  | nil => simp [group_anchored]
  | cons e0 rest =>
    dsimp only
    rw [fold_group_eq_consume eps rest [] [e0] e0.time_sec]
    rw [consume_groups_spec]
    simp [group_anchored]

/-- C6 counterexample: three sorted events 0.8 ms apart with the default
1 ms epsilon; every gap to the previous event is within epsilon, so the
claim's rule yields one group, but the code compares to the group's
first event and splits after 1.6 ms, yielding two groups. -/
theorem group_simultaneous_prev_gap_counterexample :
    (group_simultaneous close_events (1/1000)).length = 2 ∧
    (group_by_prev_gap_spec close_events (1/1000)).length = 1 := by
  constructor
  · decide
  · decide

/-! ## C2 — the pattern round-trip law fails on overlapping occurrences -/

theorem hash_groups_of_three (x : ℤ) :
    hash_groups_of [x, x, x] = [(x, [0, 1, 2])] := by
  simp [hash_groups_of, bucket_add, List.enum, List.enumFrom]

theorem find_repeating_aaaa (h : List Char → ℤ) :
    find_repeating_sequences h [['a'], ['a'], ['a'], ['a']] 2 2 =
      [([0, 1, 2], 2)] := by
  have hroll : rolling_hash h [['a'], ['a'], ['a'], ['a']] 2 =
      [h ['a', 'a'], h ['a', 'a'], h ['a', 'a']] := rfl
  unfold find_repeating_sequences
  rw [if_neg (by norm_num)]
  dsimp only
  simp only [show (List.map (fun k => [['a'], ['a'], ['a'], ['a']].length / 2 ⊓ 50 - k)
    (List.range ([['a'], ['a'], ['a'], ['a']].length / 2 ⊓ 50 + 1 - 2))) = [2] from
    by decide]
  simp only [List.foldl_cons, List.foldl_nil]
  rw [hroll, hash_groups_of_three]
  rfl

theorem fold_repeats_aaaa (h : List Char → ℤ) :
    fold_repeats_into_refs h [['a'], ['a'], ['a'], ['a']] 2 2 =
      ([['@', 'P', '1']], [(['P', '1'], [['a'], ['a']])]) := by
  unfold fold_repeats_into_refs
  rw [if_neg (by simp)]
  dsimp only
  rw [find_repeating_aaaa]
  rfl

/-- C2: on the four-token input `["a","a","a","a"]` with `min_len = 2`
and `min_occurrences = 2` the pattern `["a","a"]` occurs at the
overlapping positions 0, 1, 2; `fold_repeats_into_refs` replaces all
three occurrences unconditionally (right to left), collapsing the four
tokens into a single reference, and expansion returns only two tokens:
the claimed law `expand(fold(tokens)) == tokens` fails, whatever the
(randomized) Python string hash does. -/
theorem fold_expand_loses_overlapping_repeats (h : List Char → ℤ) :
    expand_pattern_refs (fold_repeats_into_refs h [['a'], ['a'], ['a'], ['a']] 2 2).1
      (fold_repeats_into_refs h [['a'], ['a'], ['a'], ['a']] 2 2).2 =
      [['a'], ['a']] ∧
    ([['a'], ['a']] : List (List Char)) ≠ [['a'], ['a'], ['a'], ['a']] := by
  rw [fold_repeats_aaaa]
  exact ⟨by decide, by decide⟩

/-! ## C8 — merging pairs note-on/off and keeps durations nonnegative -/

theorem mem_dict_set {κ α : Type} [DecidableEq κ] {d : List (κ × α)}
    {k : κ} {v : α} {p : κ × α} (hp : p ∈ dict_set d k v) :
    p ∈ d ∨ p = (k, v) := by
  induction d with
  | nil => simp only [dict_set, List.mem_singleton] at hp; exact Or.inr hp
  | cons q t ih =>
    unfold dict_set at hp
    split at hp
    · rcases List.mem_cons.mp hp with h | h
      · right
        rename_i hq
        rw [h, hq]
      · left
        exact List.mem_cons_of_mem _ h
    · rcases List.mem_cons.mp hp with h | h
      · exact Or.inl (h ▸ List.mem_cons_self _ _)
      · rcases ih h with h1 | h1
        · exact Or.inl (List.mem_cons_of_mem _ h1)
        · exact Or.inr h1

theorem mem_dict_pop {κ α : Type} [DecidableEq κ] {d : List (κ × α)}
    {k : κ} {p : κ × α} (hp : p ∈ dict_pop d k) : p ∈ d := by
  induction d with
  | nil => simp [dict_pop] at hp
  | cons q t ih =>
    unfold dict_pop at hp
    split at hp
    · exact List.mem_cons_of_mem _ hp
    · rcases List.mem_cons.mp hp with h | h
      · exact h ▸ List.mem_cons_self _ _
      · exact List.mem_cons_of_mem _ (ih h)

theorem mem_of_lookup {κ α : Type} [BEq κ] [LawfulBEq κ] {d : List (κ × α)}
    {k : κ} {v : α} (h : d.lookup k = some v) : (k, v) ∈ d := by
  induction d with
  | nil => simp [List.lookup] at h
  | cons q t ih =>
    rw [List.lookup_cons] at h
    split at h
    · rename_i hq
      rw [Option.some.injEq] at h
      have : q = (k, v) := by
        obtain ⟨q1, q2⟩ := q
        simp only [beq_iff_eq] at hq
        rw [Prod.mk.injEq]
        exact ⟨hq.symm, by simpa using h⟩
      exact this ▸ List.mem_cons_self _ _
    · exact List.mem_cons_of_mem _ (ih h)

theorem merge_fold_pairing :
    ∀ (events evs0 : List Event)
      (active : List ((Option ℤ × ℤ) × Event)) (merged : List Event),
    List.Pairwise (fun a b => a.time_sec ≤ b.time_sec) events →
    (∀ x ∈ events, x ∈ evs0) →
    (∀ p ∈ active, ∀ x ∈ events, p.2.time_sec ≤ x.time_sec) →
    (∀ p ∈ active, p.1 = (p.2.note, p.2.channel) ∧
      p.2 ∈ evs0 ∧ p.2.type = "note_on") →
    (∀ m ∈ merged, merged_note_ok evs0 m) →
    (∀ m ∈ (events.foldl merge_step (active, merged)).2,
      merged_note_ok evs0 m) ∧
    (∀ p ∈ (events.foldl merge_step (active, merged)).1,
      p.1 = (p.2.note, p.2.channel) ∧ p.2 ∈ evs0 ∧ p.2.type = "note_on") := by
  intro events
  induction events with
  | nil =>
    intro evs0 active merged _ _ _ hainv hm
    exact ⟨hm, hainv⟩
  | cons e rest ih =>
    intro evs0 active merged hsort hsub hact hainv hm
    have hpw := List.pairwise_cons.mp hsort
    have hsubr : ∀ x ∈ rest, x ∈ evs0 :=
      fun x hx => hsub x (List.mem_cons_of_mem _ hx)
    simp only [List.foldl_cons]
    unfold merge_step
    split_ifs with h_on h_off
    · -- note_on: record it in the active dictionary under (pitch, channel)
      refine ih evs0 _ _ hpw.2 hsubr ?_ ?_ hm
      · intro p hp x hx
        rcases mem_dict_set hp with h1 | h1
        · exact hact p h1 x (List.mem_cons_of_mem _ hx)
        · rw [h1]
          exact hpw.1 x hx
      · intro p hp
        rcases mem_dict_set hp with h1 | h1
        · exact hainv p h1
        · rw [h1]
          exact ⟨rfl, hsub e (List.mem_cons_self _ _), h_on⟩
    · -- note_off: close the matching active note-on, if any
      rcases hlk : active.lookup (e.note, e.channel) with _ | start
      · simp only [hlk]
        refine ih evs0 _ _ hpw.2 hsubr ?_ hainv hm
        intro p hp x hx
        exact hact p hp x (List.mem_cons_of_mem _ hx)
      · simp only [hlk]
        have hmem := mem_of_lookup hlk
        obtain ⟨hkey, hstmem, hsttype⟩ := hainv _ hmem
        have hknote : e.note = start.note := by
          have := congrArg Prod.fst hkey
          simpa using this
        have hkchan : e.channel = start.channel := by
          have := congrArg Prod.snd hkey
          simpa using this
        have hst : start.time_sec ≤ e.time_sec :=
          hact _ hmem e (List.mem_cons_self _ _)
        refine ih evs0 _ _ hpw.2 hsubr ?_ ?_ ?_
        · intro p hp x hx
          exact hact p (mem_dict_pop hp) x (List.mem_cons_of_mem _ hx)
        · intro p hp
          exact hainv p (mem_dict_pop hp)
        · intro m hmem2
          rcases List.mem_append.mp hmem2 with h1 | h1
          · exact hm m h1
          · have hx2 : m = ⟨"note", e.note, start.time_sec,
                e.time_sec - start.time_sec, start.velocity, e.channel,
                start.track_index⟩ := by simpa using h1
            rw [hx2]
            exact ⟨rfl, sub_nonneg.mpr hst, start, hstmem, hsttype,
              hknote.symm, hkchan.symm, rfl, rfl, rfl,
              Or.inl ⟨e, hsub e (List.mem_cons_self _ _), h_off, hknote,
                hkchan, rfl⟩⟩
    · -- other event types: state unchanged
      refine ih evs0 _ _ hpw.2 hsubr ?_ hainv hm
      intro p hp x hx
      exact hact p hp x (List.mem_cons_of_mem _ hx)

/-- C8: for every chronologically ordered event list, every output note
of `merge_note_events` has type `"note"` and a nonnegative duration, and
originates from a note-on of the input, either paired with a note-off of
the input on the same `(pitch, channel)` key (duration = note-off time −
note-on time) or closed with the positive default duration 0.1; and
every note-on still unmatched in the active dictionary at the end of the
stream appears in the output closed with exactly the 0.1 default. -/
theorem merge_note_events_pairing (events : List Event)
    (hsort : List.Pairwise (fun a b => a.time_sec ≤ b.time_sec) events) :
    (∀ m ∈ merge_note_events events, merged_note_ok events m) ∧
    (∀ p ∈ (events.foldl merge_step ([], [])).1,
      (⟨"note", p.2.note, p.2.time_sec, 1/10, p.2.velocity, p.2.channel,
        p.2.track_index⟩ : Event) ∈ merge_note_events events) := by
  obtain ⟨hmerged, hactive⟩ := merge_fold_pairing events events [] [] hsort
    (fun x hx => hx) (by simp) (by simp) (by simp)
  have hperm := List.perm_insertionSort
    (fun (a b : Event) => a.time_sec ≤ b.time_sec)
    ((events.foldl merge_step ([], [])).2 ++
      (events.foldl merge_step ([], [])).1.map fun p =>
        ⟨"note", p.2.note, p.2.time_sec, 1/10, p.2.velocity, p.2.channel,
          p.2.track_index⟩)
  constructor
  · intro m hme
    unfold merge_note_events at hme
    have hm2 := hperm.mem_iff.mp hme
    rcases List.mem_append.mp hm2 with h1 | h1
    · exact hmerged m h1
    · obtain ⟨p, hp, hpe⟩ := List.mem_map.mp h1
      obtain ⟨_, hpmem, hptype⟩ := hactive p hp
      rw [← hpe]
      exact ⟨rfl, by norm_num, p.2, hpmem, hptype, rfl, rfl, rfl, rfl, rfl,
        Or.inr rfl⟩
  · intro p hp
    unfold merge_note_events
    apply hperm.mem_iff.mpr
    exact List.mem_append_right _ (List.mem_map_of_mem _ hp)

/-- Witness for C8 on a mixed sorted on/on/off stream: the note-on at
pitch 60 is paired with its note-off (duration 2) and the note-on at
pitch 64 is left unmatched and closed with the 0.1 default. -/
theorem merge_note_events_pairing_witness :
    (∀ m ∈ merge_note_events
      [⟨"note_on", some 60, 0, 0, 90, 0, 0⟩,
       ⟨"note_on", some 64, 1, 0, 80, 0, 0⟩,
       ⟨"note_off", some 60, 2, 0, 0, 0, 0⟩],
      merged_note_ok
        [⟨"note_on", some 60, 0, 0, 90, 0, 0⟩,
         ⟨"note_on", some 64, 1, 0, 80, 0, 0⟩,
         ⟨"note_off", some 60, 2, 0, 0, 0, 0⟩] m) ∧
    (∀ p ∈ (([⟨"note_on", some 60, 0, 0, 90, 0, 0⟩,
        ⟨"note_on", some 64, 1, 0, 80, 0, 0⟩,
        ⟨"note_off", some 60, 2, 0, 0, 0, 0⟩] : List Event).foldl
          merge_step ([], [])).1,
      (⟨"note", p.2.note, p.2.time_sec, 1/10, p.2.velocity, p.2.channel,
        p.2.track_index⟩ : Event) ∈ merge_note_events
        [⟨"note_on", some 60, 0, 0, 90, 0, 0⟩,
         ⟨"note_on", some 64, 1, 0, 80, 0, 0⟩,
         ⟨"note_off", some 60, 2, 0, 0, 0, 0⟩]) :=
  merge_note_events_pairing
    [⟨"note_on", some 60, 0, 0, 90, 0, 0⟩,
     ⟨"note_on", some 64, 1, 0, 80, 0, 0⟩,
     ⟨"note_off", some 60, 2, 0, 0, 0, 0⟩] (by decide)

/-! ## C7 — Scenario A: C-major detection -/

set_option maxRecDepth 100000 in
/-- C7: on the eight-note C-major scale (pitches 60..72, equal
velocities and durations), `detect_best_scale` returns root pitch class
0 (C) and scale id 2 (major); the winning score is 11/8, strictly above
0.8.  The four enharmonic seven-note modes tie exactly and the ≤4-sized
tie is broken by root emphasis, which the first/last-note bonus decides
in favor of C. -/
theorem detect_best_scale_c_major :
    detect_best_scale scenario_a = (0, 2, 11/8) ∧ (4/5 : ℚ) < 11/8 := by
  constructor
  · decide
  · norm_num

/-! ## Character-class and line-splitting helper lemmas -/

theorem alnum_not_ws (c : Char) (h : isPyAlnum c = true) :
    isPyWhitespace c = false := by
  cases hb : isPyWhitespace c
  · rfl
  · exfalso
    simp only [isPyWhitespace, Bool.or_eq_true, decide_eq_true_eq] at hb
    rcases hb with ((((hb | hb) | hb) | hb) | hb) | hb <;>
      (subst hb; exact absurd h (by decide))

set_option maxRecDepth 10000 in
theorem alnum_base64_key : ∀ n : Fin 123,
    isPyAlnum (Char.ofNat n.val) = true →
    (py_index base64_chars (Char.ofNat n.val)).isSome = true := by decide

theorem alnum_base64_index (c : Char) (h : isPyAlnum c = true) :
    (py_index base64_chars c).isSome = true := by
  have hlt : c.toNat < 123 := by
    simp only [isPyAlnum, Char.isAlphanum, Char.isAlpha, Char.isUpper,
      Char.isLower, Char.isDigit, Bool.or_eq_true, Bool.and_eq_true,
      decide_eq_true_eq] at h
    unfold Char.toNat
    rcases h with (⟨h1, h2⟩ | ⟨h1, h2⟩) | ⟨h1, h2⟩ <;>
    · have h2n : c.val.toNat ≤ 122 := le_trans h2 (by decide)
      omega
  have hk := alnum_base64_key ⟨c.toNat, hlt⟩ (by rw [Char.ofNat_toNat]; exact h)
  rwa [Char.ofNat_toNat] at hk

theorem headD_eq_of_append {α : Type} {l₁ t l₂ : List α} (h : l₂ = l₁ ++ t)
    (hne : l₁ ≠ []) (d : α) : l₂.headD d = l₁.headD d := by
  subst h
  cases l₁ with
  | nil => exact absurd rfl hne
  | cons a l => rfl

theorem dropWhile_head_not {α : Type} (p : α → Bool) :
    ∀ (l : List α) (a : α) (t : List α), l.dropWhile p = a :: t → p a = false := by
  intro l
  induction l with
  | nil => intro a t h; simp [List.dropWhile] at h
  | cons b r ih =>
    intro a t h
    rw [List.dropWhile] at h
    split at h
    · exact ih a t h
    · rename_i hb
      rw [List.cons.injEq] at h
      rw [← h.1]
      simpa using hb

theorem pyStrip_as_append (l : List Char) :
    ∃ t, l.dropWhile isPyWhitespace = pyStrip l ++ t := by
  unfold pyStrip
  obtain ⟨t, ht⟩ := List.dropWhile_suffix
    (l := (l.dropWhile isPyWhitespace).reverse) isPyWhitespace
  refine ⟨t.reverse, ?_⟩
  have := congrArg List.reverse ht
  simpa using this.symm

theorem pyStrip_head_not_ws (l : List Char) (h : pyStrip l ≠ []) :
    isPyWhitespace ((pyStrip l).headD ' ') = false := by
  obtain ⟨t, ht⟩ := pyStrip_as_append l
  have hd : (l.dropWhile isPyWhitespace).headD ' ' = (pyStrip l).headD ' ' :=
    headD_eq_of_append ht h ' '
  rcases hD : l.dropWhile isPyWhitespace with _ | ⟨a, r⟩
  · rw [hD] at ht
    rcases List.append_eq_nil.mp ht.symm with ⟨h1, _⟩
    exact absurd h1 h
  · have ha := dropWhile_head_not isPyWhitespace l a r hD
    rw [hD] at hd
    rw [← hd]
    exact ha

theorem pyStrip_of_no_ws (l : List Char)
    (h : ∀ c ∈ l, isPyWhitespace c = false) : pyStrip l = l := by
  unfold pyStrip
  have h1 : l.dropWhile isPyWhitespace = l := by
    cases l with
    | nil => rfl
    | cons a t =>
      exact List.dropWhile_cons_of_neg (by simp [h a (List.mem_cons_self a t)])
  rw [h1]
  have h2 : l.reverse.dropWhile isPyWhitespace = l.reverse := by
    cases hr : l.reverse with
    | nil => rfl
    | cons a t =>
      have ha : a ∈ l := by
        rw [← List.mem_reverse, hr]
        exact List.mem_cons_self a t
      rw [← hr]
      rw [hr]
      exact List.dropWhile_cons_of_neg (by simp [h a ha])
  rw [h2, List.reverse_reverse]

theorem splitNL_cons_nl (r : List Char) : splitNL ('\n' :: r) = [] :: splitNL r := by
  show (if ('\n' : Char) = '\n' then [] :: splitNL r else
    ('\n' :: (splitNL r).headD []) :: (splitNL r).tail) = [] :: splitNL r
  rw [if_pos rfl]

theorem splitNL_cons_ne (c : Char) (r : List Char) (hc : c ≠ '\n') :
    splitNL (c :: r) = (c :: (splitNL r).headD []) :: (splitNL r).tail := by
  show (if c = '\n' then [] :: splitNL r else
    (c :: (splitNL r).headD []) :: (splitNL r).tail) =
    (c :: (splitNL r).headD []) :: (splitNL r).tail
  rw [if_neg hc]

theorem splitNL_ne_nil (s : List Char) : splitNL s ≠ [] := by
  cases s with
  | nil => simp [splitNL]
  | cons c r =>
    by_cases hc : c = '\n'
    · subst hc
      rw [splitNL_cons_nl]
      simp
    · rw [splitNL_cons_ne c r hc]
      simp

theorem joinNL_cons (l : List Char) (ls : List (List Char)) (h : ls ≠ []) :
    joinNL (l :: ls) = l ++ '\n' :: joinNL ls := by
  cases ls with
  | nil => exact absurd rfl h
  | cons a t => rfl

theorem joinNL_splitNL (s : List Char) : joinNL (splitNL s) = s := by
  induction s with
  | nil => rfl
  | cons c rest ih =>
    by_cases hc : c = '\n'
    · subst hc
      rw [splitNL_cons_nl, joinNL_cons _ _ (splitNL_ne_nil rest), ih]
      rfl
    · rw [splitNL_cons_ne c rest hc]
      rcases hS : splitNL rest with _ | ⟨a, t⟩
      · exact absurd hS (splitNL_ne_nil rest)
      · rw [hS] at ih
        cases t with
        | nil =>
          simp only [List.headD_cons, List.tail_cons]
          have h1 : joinNL [a] = a := rfl
          rw [h1] at ih
          show c :: a = c :: rest
          rw [ih]
        | cons b t2 =>
          simp only [List.headD_cons, List.tail_cons]
          rw [joinNL_cons (c :: a) (b :: t2) (by simp)]
          rw [joinNL_cons a (b :: t2) (by simp)] at ih
          rw [← ih]
          rfl

theorem splitNL_no_newline (s : List Char) : ∀ l ∈ splitNL s, '\n' ∉ l := by
  induction s with
  | nil =>
    intro l hl
    simp [splitNL] at hl
    simp [hl]
  | cons c rest ih =>
    intro l hl
    by_cases hc : c = '\n'
    · subst hc
      rw [splitNL_cons_nl] at hl
      rcases List.mem_cons.mp hl with h | h
      · simp [h]
      · exact ih l h
    · rw [splitNL_cons_ne c rest hc] at hl
      rcases List.mem_cons.mp hl with h | h
      · subst h
        intro hmem
        rcases List.mem_cons.mp hmem with h1 | h1
        · exact hc h1.symm
        · rcases hS : splitNL rest with _ | ⟨a, t⟩
          · exact absurd hS (splitNL_ne_nil rest)
          · rw [hS] at h1
            exact ih a (by rw [hS]; exact List.mem_cons_self a t) (by simpa using h1)
      · exact ih l (List.mem_of_mem_tail h)

theorem splitNL_nl_free (l : List Char) (h : '\n' ∉ l) : splitNL l = [l] := by
  induction l with
  | nil => rfl
  | cons c rest ih =>
    rw [splitNL_cons_ne c rest (by intro hc; exact h (by simp [hc]))]
    rw [ih (by intro hm; exact h (List.mem_cons_of_mem _ hm))]
    rfl

theorem splitNL_append_nl_free (x : List Char) (hx : '\n' ∉ x) (s : List Char) :
    splitNL (x ++ s) = (x ++ (splitNL s).headD []) :: (splitNL s).tail := by
  induction x with
  | nil =>
    simp only [List.nil_append]
    rcases hS : splitNL s with _ | ⟨a, t⟩
    · exact absurd hS (splitNL_ne_nil s)
    · rfl
  | cons c x2 ih =>
    have hc : c ≠ '\n' := by intro hc; exact hx (by simp [hc])
    have hx2 : '\n' ∉ x2 := by intro hm; exact hx (List.mem_cons_of_mem _ hm)
    show splitNL (c :: (x2 ++ s)) = _
    rw [splitNL_cons_ne c (x2 ++ s) hc, ih hx2]
    rfl

/-! ## Decoder helper lemmas -/

theorem parse_note_tokens_ok_of_alnum :
    ∀ (n : ℕ) (s : List Char), s.length ≤ n →
    (∀ c ∈ s, isPyAlnum c = true) → ∀ t : ℚ,
    ∃ notes, parse_note_tokens s t = .ok notes ∧
      notes.length = s.length / 3 := by
  intro n
  induction n with
  | zero =>
    intro s hs _ t
    rw [List.length_eq_zero.mp (Nat.le_zero.mp hs)]
    exact ⟨[], rfl, rfl⟩
  | succ n ih =>
    intro s hs hal t
    match s with
    | [] => exact ⟨[], rfl, rfl⟩
    | [c] => exact ⟨[], rfl, by simp⟩
    | [c, c2] => exact ⟨[], rfl, by simp⟩
    | c :: t1 :: t2 :: rest =>
      obtain ⟨mi, hmi⟩ := Option.isSome_iff_exists.mp
        (alnum_base64_index t1 (hal t1 (by simp)))
      obtain ⟨ti, hti⟩ := Option.isSome_iff_exists.mp
        (alnum_base64_index t2 (hal t2 (by simp)))
      have hrest : rest.length ≤ n := by
        simp only [List.length_cons] at hs
        omega
      have halr : ∀ ch ∈ rest, isPyAlnum ch = true := fun ch hch =>
        hal ch (by simp [hch])
      have hsts : shawzin_time_to_seconds [t1, t2] =
          .ok (((mi : ℤ) * intMax 1 (pyRound ((4 : ℚ) / (1/16))) + (ti : ℤ) : ℤ) *
            (1/16 : ℚ)) := by
        unfold shawzin_time_to_seconds
        dsimp only
        rw [hmi, hti]
      set v : ℚ := (((mi : ℤ) * intMax 1 (pyRound ((4 : ℚ) / (1/16))) + (ti : ℤ) : ℤ) *
        (1/16 : ℚ)) with hv
      obtain ⟨tail, htail, hlen⟩ := ih rest hrest halr (t + v)
      refine ⟨(c, t + v) :: tail, ?_, ?_⟩
      · show (do
          let d ← shawzin_time_to_seconds [t1, t2]
          let tt := t + d
          let tl ← parse_note_tokens rest tt
          pure ((c, tt) :: tl)) = _
        rw [hsts]
        show (do
          let tl ← parse_note_tokens rest (t + v)
          pure ((c, t + v) :: tl) : Except String _) = _
        rw [htail]
        rfl
      · simp only [List.length_cons, hlen]
        omega

theorem pyStrip_cons_head (c0 : Char) (r : List Char)
    (h : isPyWhitespace c0 = false) :
    ∃ r2, pyStrip (c0 :: r) = c0 :: r2 := by
  have hdw : (c0 :: r).dropWhile isPyWhitespace = c0 :: r :=
    List.dropWhile_cons_of_neg (by simp [h])
  have key : ∀ (l : List Char), ∃ pre,
      (l ++ [c0]).dropWhile isPyWhitespace = pre ++ [c0] := by
    intro l
    induction l with
    | nil =>
      refine ⟨[], ?_⟩
      simpa using List.dropWhile_cons_of_neg (p := isPyWhitespace)
        (l := ([] : List Char)) (by simp [h])
    | cons a t iht =>
      by_cases ha : isPyWhitespace a = true
      · obtain ⟨pre, hpre⟩ := iht
        refine ⟨pre, ?_⟩
        rw [List.cons_append, List.dropWhile_cons_of_pos ha, hpre]
      · exact ⟨a :: t, List.dropWhile_cons_of_neg (by simpa using ha)⟩
  unfold pyStrip
  rw [hdw]
  obtain ⟨pre, hpre⟩ := key r.reverse
  rw [show (c0 :: r).reverse = r.reverse ++ [c0] by simp, hpre]
  exact ⟨pre.reverse, by simp⟩

theorem first_line_head (c0 : Char) (s2 : List Char)
    (hnw : isPyWhitespace c0 = false) :
    ∃ r2, pyStrip ((splitNL (c0 :: s2)).headD []) = c0 :: r2 := by
  have hc : c0 ≠ '\n' := by
    intro hc
    rw [hc] at hnw
    simp [isPyWhitespace] at hnw
  rw [splitNL_cons_ne c0 s2 hc]
  simp only [List.headD_cons]
  exact pyStrip_cons_head c0 _ hnw

theorem scale_header_split_nondigit (s : List Char) (hne : s ≠ [])
    (hnw : isPyWhitespace (s.headD ' ') = false)
    (hnd : isPyDigit (s.headD ' ') = false) :
    scale_header_split s = .ok (1, s) := by
  obtain ⟨c0, s2⟩ : ∃ c0 s2, s = c0 :: s2 := by
    cases s with
    | nil => exact absurd rfl hne
    | cons a t => exact ⟨a, t, rfl⟩
  obtain ⟨s2, rfl⟩ := s2
  simp only [List.headD_cons] at hnw hnd
  obtain ⟨r2, hfl⟩ := first_line_head c0 s2 hnw
  unfold scale_header_split
  dsimp only
  rw [hfl]
  simp only [List.head?_cons]
  rw [if_neg (by simp [hnd])]

theorem digit_scale_bounds (c : Char) (hd : isPyDigit c = true) (h0 : c ≠ '0') :
    1 ≤ c.toNat - '0'.toNat ∧ c.toNat - '0'.toNat ≤ 9 := by
  have hb : 48 ≤ c.toNat ∧ c.toNat ≤ 57 := by
    simp only [isPyDigit, Char.isDigit, Bool.and_eq_true, decide_eq_true_eq] at hd
    unfold Char.toNat
    exact ⟨le_trans (by decide) hd.1, le_trans hd.2 (by decide)⟩
  have h48 : c.toNat ≠ 48 := by
    intro hc
    apply h0
    have := Char.ofNat_toNat c
    rw [hc] at this
    rw [← this]
  show 1 ≤ c.toNat - 48 ∧ c.toNat - 48 ≤ 9
  omega

theorem scale_header_split_ok (s : List Char) (hne : s ≠ [])
    (hnw : isPyWhitespace (s.headD ' ') = false)
    (h0 : s.headD ' ' ≠ '0') :
    ∃ p, scale_header_split s = .ok p := by
  by_cases hd : isPyDigit (s.headD ' ') = true
  · obtain ⟨c0, s2⟩ : ∃ c0 s2, s = c0 :: s2 := by
      cases s with
      | nil => exact absurd rfl hne
      | cons a t => exact ⟨a, t, rfl⟩
    obtain ⟨s2, rfl⟩ := s2
    simp only [List.headD_cons] at hnw hd h0
    obtain ⟨r2, hfl⟩ := first_line_head c0 s2 hnw
    obtain ⟨hs1, hs9⟩ := digit_scale_bounds c0 hd h0
    unfold scale_header_split
    dsimp only
    rw [hfl]
    simp only [List.head?_cons]
    rw [if_pos hd]
    rw [if_pos ⟨hs1, hs9⟩]
    exact ⟨_, rfl⟩
  · exact ⟨(1, s), scale_header_split_nondigit s hne hnw
      (by simpa using hd)⟩

/-! ## C3 — decode fallback for malformed headers -/

/-- C3 (amended): a decode input whose (stripped) first character is not
a digit does not fail — the decoder proceeds with an assumed scale id of
1 and parses the whole content as tokens.  (A digit first character
outside 1-9 — i.e. `'0'` — raises instead, see the counterexample.) -/
theorem read_shawzin_nondigit_fallback (content : List Char)
    (h1 : pyStrip content ≠ [])
    (h2 : isPyDigit ((pyStrip content).headD ' ') = false) :
    ∃ notes, read_shawzin_file content = .ok (1, notes) ∧
      parse_note_tokens ((pyStrip content).filter isPyAlnum) 0 = .ok notes := by
  have hnw := pyStrip_head_not_ws content h1
  have hs := scale_header_split_nondigit (pyStrip content) h1 hnw h2
  obtain ⟨notes, hp, hlen⟩ := parse_note_tokens_ok_of_alnum
    ((pyStrip content).filter isPyAlnum).length _ le_rfl
    (fun c hc => List.of_mem_filter hc) 0
  refine ⟨notes, ?_, hp⟩
  unfold read_shawzin_file
  dsimp only
  rw [if_neg h1, hs]
  show (do
    let n ← parse_note_tokens ((pyStrip content).filter isPyAlnum) 0
    pure ((1 : ℕ), n) : Except String _) = _
  rw [hp]
  rfl

/-- Witness for C3 on the content `"xAA"`: a non-digit first character
degrades to scale id 1 and one token is parsed. -/
theorem read_shawzin_nondigit_fallback_witness :
    read_shawzin_file ('x' :: 'A' :: 'A' :: []) = .ok (1, [('x', 0)]) := by
  obtain ⟨notes, hok, hp⟩ := read_shawzin_nondigit_fallback
    ('x' :: 'A' :: 'A' :: []) (by decide) (by decide)
  have hpar : parse_note_tokens
      ((pyStrip ('x' :: 'A' :: 'A' :: [])).filter isPyAlnum) 0 =
      .ok [('x', 0)] := rfl
  rw [hpar] at hp
  rw [hok]
  rw [Except.ok.injEq] at hp ⊢
  rw [Prod.mk.injEq]
  exact ⟨rfl, by rw [← hp]⟩

/-- C3 counterexample: a digit first character outside 1-9 does not
degrade to scale 1 — `read_shawzin_file` raises the scale-id
`ValueError` on the content `"0AA"`. -/
theorem read_shawzin_digit_zero_errors :
    read_shawzin_file ('0' :: 'A' :: 'A' :: []) =
      .error "Scale ID must be 1-9" := rfl

/-! ## C10 — a trailing 1- or 2-character remainder is silently dropped -/

/-- C10: for every decode input (with a well-formed or absent header, the
only failing header digit being `'0'`) whose filtered alphanumeric token
content has a length that is not a multiple of 3, decoding succeeds with
exactly `length / 3` (symbol, time) pairs — the 1 or 2 leftover
characters are dropped without any error. -/
theorem read_shawzin_drops_remainder (content : List Char)
    (h1 : pyStrip content ≠ [])
    (h2 : (pyStrip content).headD ' ' ≠ '0')
    (_h3 : ((token_content_of content).filter isPyAlnum).length % 3 ≠ 0) :
    ∃ scale notes, read_shawzin_file content = .ok (scale, notes) ∧
      notes.length = ((token_content_of content).filter isPyAlnum).length / 3 := by
  have hnw := pyStrip_head_not_ws content h1
  obtain ⟨⟨scale, tc⟩, hs⟩ := scale_header_split_ok (pyStrip content) h1 hnw h2
  have htc : token_content_of content = tc := by
    unfold token_content_of
    rw [hs]
  obtain ⟨notes, hp, hlen⟩ := parse_note_tokens_ok_of_alnum
    (tc.filter isPyAlnum).length _ le_rfl
    (fun c hc => List.of_mem_filter hc) 0
  refine ⟨scale, notes, ?_, by rw [htc]; exact hlen⟩
  unfold read_shawzin_file
  dsimp only
  rw [if_neg h1, hs]
  show (do
    let n ← parse_note_tokens (tc.filter isPyAlnum) 0
    pure (scale, n) : Except String _) = _
  rw [hp]
  rfl

/-- Witness for C10 on the content `"1AABC"`: the filtered token content
`"AABC"` has length 4 (not a multiple of 3), and decoding succeeds with
exactly one pair. -/
theorem read_shawzin_drops_remainder_witness :
    ((token_content_of ('1' :: 'A' :: 'A' :: 'B' :: 'C' :: [])).filter
      isPyAlnum).length % 3 ≠ 0 ∧
    ∃ scale notes,
      read_shawzin_file ('1' :: 'A' :: 'A' :: 'B' :: 'C' :: []) =
        .ok (scale, notes) ∧ notes.length = 1 := by
  obtain ⟨scale, notes, hok, hlen⟩ := read_shawzin_drops_remainder
    ('1' :: 'A' :: 'A' :: 'B' :: 'C' :: []) (by decide) (by decide) (by decide)
  have h4 : ((token_content_of ('1' :: 'A' :: 'A' :: 'B' :: 'C' :: [])).filter
      isPyAlnum).length = 4 := by decide
  rw [h4] at hlen
  exact ⟨by decide, scale, notes, hok, hlen⟩

/-! ## C4 — chunk splitting, fresh headers, reset time origin -/

theorem time_to_shawzin_time_zero (spm spt : ℚ) :
    time_to_shawzin_time 0 spm spt = ['A', 'A'] := by
  unfold time_to_shawzin_time
  dsimp only
  rw [zero_div]
  have h0 : pyRound 0 = 0 := by decide
  rw [h0]
  have h1 : intMax 0 0 = 0 := rfl
  rw [h1, Int.zero_fdiv, Int.zero_fmod, Int.zero_fmod]
  rfl

theorem create_scale_header_digit (s : ℕ) (h1 : 1 ≤ s) (h9 : s ≤ 9) :
    create_scale_header s = [Nat.digitChar s] := by
  interval_cases s <;> rfl

theorem time_to_shawzin_time_pair (d spm spt : ℚ) :
    ∃ a b, time_to_shawzin_time d spm spt = [a, b] :=
  ⟨_, _, rfl⟩

theorem joinNL_append_last (L : List (List Char)) (x y : List Char) :
    joinNL (L ++ [x ++ y]) = joinNL (L ++ [x]) ++ y := by
  induction L with
  | nil => rfl
  | cons l L' ih =>
    rw [List.cons_append, List.cons_append,
      joinNL_cons _ _ (by simp), joinNL_cons _ _ (by simp), ih]
    simp [List.append_assoc]

theorem joinNL_append_new (L : List (List Char)) (x y : List Char) :
    joinNL ((L ++ [x]) ++ [y]) = joinNL (L ++ [x]) ++ ('\n' :: y) := by
  induction L with
  | nil => rfl
  | cons l L' ih =>
    rw [List.cons_append l L' [x], List.cons_append l (L' ++ [x]) [y],
      joinNL_cons _ _ (by simp), joinNL_cons _ _ (by simp), ih]
    simp [List.append_assoc]

theorem chunk_head_ok_append {c : List Char} (h : chunk_head_ok c)
    (y : List Char) : chunk_head_ok (c ++ y) := by
  obtain ⟨s, r, hs1, hs9, rfl⟩ := h
  exact ⟨s, r ++ y, hs1, hs9, by simp⟩

theorem later_chunk_ok_append {settings : EncodingSettings} {c : List Char}
    (h : later_chunk_ok settings c) (y : List Char) :
    later_chunk_ok settings (c ++ y) := by
  obtain ⟨s, ch, r, hs1, hs9, rfl⟩ := h
  exact ⟨s, ch, r ++ y, hs1, hs9, by simp⟩

theorem enc_loop_inv (mN mL : ℕ) (ko : Bool) (settings : EncodingSettings)
    (hmN : 1 ≤ mN) (hmL : 3 ≤ mL) :
    ∀ (evs : List ShawzinNote) (st : EncSt),
    (∀ e ∈ evs, 1 ≤ e.scale_id ∧ e.scale_id ≤ 9) →
    EncInv mN settings st →
    EncInv mN settings (evs.foldl (enc_step mN mL ko settings) st) ∧
    (evs.foldl (enc_step mN mL ko settings) st).chunks.length * mN +
        (evs.foldl (enc_step mN mL ko settings) st).notes_in_chunk =
      st.chunks.length * mN + st.notes_in_chunk + evs.length := by
  intro evs
  induction evs with
  | nil => intro st _ hinv; exact ⟨hinv, by simp⟩
  | cons e rest ih =>
    intro st hsc hinv
    obtain ⟨hline, hhead, hall, htail, hlater, hcnt⟩ := hinv
    obtain ⟨hs1, hs9⟩ := hsc e (List.mem_cons_self _ _)
    have hscr : ∀ x ∈ rest, 1 ≤ x.scale_id ∧ x.scale_id ≤ 9 :=
      fun x hx => hsc x (List.mem_cons_of_mem _ hx)
    simp only [List.foldl_cons, List.length_cons]
    have hstep : ∃ st1, enc_step mN mL ko settings st e = st1 ∧
        EncInv mN settings st1 ∧
        st1.chunks.length * mN + st1.notes_in_chunk =
          st.chunks.length * mN + st.notes_in_chunk + 1 := by
      unfold enc_step
      dsimp only
      obtain ⟨ta, tb, htok⟩ := time_to_shawzin_time_pair
        (if ko = true then e.time_sec - st.last_time else 0)
        settings.seconds_per_measure settings.seconds_per_tick
      by_cases htr : st.notes_in_chunk ≥ mN
      · -- chunk boundary: flush, new header, delta reset to zero
        rw [if_pos htr]
        rw [if_neg (show ¬ (st.line = []) from hline)]
        have hd0 : (if ko = true then (0 : ℚ)
            else if ko = true then e.time_sec - st.last_time else 0) = 0 := by
          by_cases hko : ko = true <;> simp [hko]
        rw [hd0]
        have h3 : ¬ (0 + (event_to_shawzin_token e.character 0 settings).length > mL) := by
          unfold event_to_shawzin_token
          rw [time_to_shawzin_time_zero]
          simpa using hmL
        rw [if_neg h3]
        refine ⟨_, rfl, ⟨?_, ?_, ?_, ?_, ?_, ?_⟩, ?_⟩
        · unfold event_to_shawzin_token
          simp
        · refine ⟨e.scale_id,
            '\n' :: event_to_shawzin_token e.character 0 settings, hs1, hs9, ?_⟩
          rw [create_scale_header_digit _ hs1 hs9]
          rfl
        · intro c hc
          rcases List.mem_append.mp hc with h | h
          · exact hall c h
          · have : c = joinNL (st.lines ++ [st.line]) := by simpa using h
            exact this ▸ hhead
        · intro c hc
          dsimp only at hc
          rcases hch : st.chunks with _ | ⟨c0, cs⟩
          · rw [hch] at hc
            simp at hc
          · rw [hch] at hc
            rw [List.cons_append, List.tail_cons] at hc
            rcases List.mem_append.mp hc with h | h
            · exact htail c (by rw [hch]; exact h)
            · have hcj : c = joinNL (st.lines ++ [st.line]) := by simpa using h
              rw [hcj]
              exact hlater (by rw [hch]; simp)
        · intro _
          refine ⟨e.scale_id, e.character, [], hs1, hs9, ?_⟩
          rw [create_scale_header_digit _ hs1 hs9]
          unfold event_to_shawzin_token
          rfl
        · exact hmN
        · have hcm : st.notes_in_chunk = mN := le_antisymm hcnt htr
          show (st.chunks ++ [joinNL (st.lines ++ [st.line])]).length * mN + 1 =
            st.chunks.length * mN + st.notes_in_chunk + 1
          rw [List.length_append]
          simp only [List.length_cons, List.length_nil, Nat.zero_add,
            Nat.add_mul, Nat.one_mul]
          omega
      · -- within the chunk: line-length check only
        rw [if_neg htr]
        have hcnt1 : st.notes_in_chunk + 1 ≤ mN := by omega
        by_cases hwrap : st.line.length +
            (event_to_shawzin_token e.character
              (if ko = true then e.time_sec - st.last_time else 0)
              settings).length > mL
        · rw [if_pos hwrap]
          refine ⟨_, rfl, ⟨?_, ?_, hall, htail, ?_, hcnt1⟩, rfl⟩
          · unfold event_to_shawzin_token
            simp
          · dsimp only
            rw [joinNL_append_new]
            exact chunk_head_ok_append hhead _
          · intro hch
            dsimp only at hch ⊢
            rw [joinNL_append_new]
            exact later_chunk_ok_append (hlater hch) _
        · rw [if_neg hwrap]
          refine ⟨_, rfl, ⟨?_, ?_, hall, htail, ?_, hcnt1⟩, rfl⟩
          · intro hc
            exact hline (List.append_eq_nil.mp hc).1
          · dsimp only
            rw [joinNL_append_last]
            exact chunk_head_ok_append hhead _
          · intro hch
            dsimp only at hch ⊢
            rw [joinNL_append_last]
            exact later_chunk_ok_append (hlater hch) _
    obtain ⟨st1, hst1, hinv1, hcount1⟩ := hstep
    rw [hst1]
    obtain ⟨hinv2, hcount2⟩ := ih st1 hscr hinv1
    exact ⟨hinv2, by omega⟩

/-- C4: when the event list is longer than `max_notes_per_chunk` (with
the platform constraints `max_notes ≥ 1`, `max_length ≥ 3` and valid
per-event scale ids), encoding produces at least two chunks; every chunk
begins with a single-digit scale header; and every chunk after the first
has its own header line followed by a first token whose encoded delta
time is zero (the reset time origin), not a delta against the previous
chunk's last time. -/
theorem events_to_shawzin_text_chunking (events : List ShawzinNote)
    (mN mL : ℕ) (ko : Bool) (settings : EncodingSettings)
    (hmN : 1 ≤ mN) (hmL : 3 ≤ mL)
    (hsc : ∀ e ∈ events, 1 ≤ e.scale_id ∧ e.scale_id ≤ 9)
    (hlen : mN < events.length) :
    2 ≤ (events_to_shawzin_text events mN mL ko settings).length ∧
    (∀ c ∈ events_to_shawzin_text events mN mL ko settings, chunk_head_ok c) ∧
    (∀ c ∈ (events_to_shawzin_text events mN mL ko settings).tail,
      later_chunk_ok settings c) := by
  rcases hev : events with _ | ⟨e0, evrest⟩
  · rw [hev] at hlen
    simp at hlen
  · rw [← hev]
    obtain ⟨h01, h09⟩ := hsc e0 (by rw [hev]; exact List.mem_cons_self _ _)
    have hinv0 : EncInv mN settings
        ⟨[], [], create_scale_header e0.scale_id, 0, 0⟩ := by
      refine ⟨?_, ?_, by simp, by simp, by simp, Nat.zero_le _⟩
      · rw [create_scale_header_digit _ h01 h09]
        simp
      · refine ⟨e0.scale_id, [], h01, h09, ?_⟩
        rw [create_scale_header_digit _ h01 h09]
        rfl
    obtain ⟨⟨hline, hhead, hall, htail, hlater, hcnt⟩, hcount⟩ :=
      enc_loop_inv mN mL ko settings hmN hmL events
        ⟨[], [], create_scale_header e0.scale_id, 0, 0⟩ hsc hinv0
    set stf := events.foldl (enc_step mN mL ko settings)
      ⟨[], [], create_scale_header e0.scale_id, 0, 0⟩ with hstf
    simp only [List.length_nil, Nat.zero_mul, Nat.zero_add] at hcount
    have hchlen : 1 ≤ stf.chunks.length := by
      by_contra hc
      have h0 : stf.chunks.length = 0 := by omega
      rw [h0] at hcount
      omega
    have heq : events_to_shawzin_text events mN mL ko settings =
        stf.chunks ++ [joinNL (stf.lines ++ [stf.line])] := by
      unfold events_to_shawzin_text
      rw [hev]
      dsimp only
      rw [← hev, ← hstf]
      rw [if_neg (show ¬ (stf.line = []) from hline)]
      rw [if_neg (by simp)]
      rw [if_neg (by simp)]
    rw [heq]
    refine ⟨?_, ?_, ?_⟩
    · simp only [List.length_append, List.length_cons, List.length_nil]
      omega
    · intro c hc
      rcases List.mem_append.mp hc with h | h
      · exact hall c h
      · have hcj : c = joinNL (stf.lines ++ [stf.line]) := by simpa using h
        exact hcj ▸ hhead
    · intro c hc
      rcases hch : stf.chunks with _ | ⟨c0, cs⟩
      · rw [hch] at hchlen
        simp at hchlen
      · rw [hch, List.cons_append, List.tail_cons] at hc
        rcases List.mem_append.mp hc with h | h
        · exact htail c (by rw [hch]; exact h)
        · have hcj : c = joinNL (stf.lines ++ [stf.line]) := by simpa using h
          rw [hcj]
          exact hlater (by rw [hch]; simp)

/-- Witness for C4 (Scenario D): 2000 identical notes with
`max_notes_per_chunk = 1666` produce at least two chunks. -/
theorem events_to_shawzin_text_chunking_witness :
    2 ≤ (events_to_shawzin_text
      (List.replicate 2000 (⟨'1', 0, 1, 60, 60, 2, 0⟩ : ShawzinNote))
      1666 256 true default_settings).length := by
  refine (events_to_shawzin_text_chunking _ 1666 256 true default_settings
    (by norm_num) (by norm_num) ?_
    (by simp only [List.length_replicate]; omega)).1
  intro e he
  rw [List.eq_of_mem_replicate he]
  exact ⟨by norm_num, by norm_num⟩

/-! ## C1 — codec round-trip: facts about the time alphabet -/

theorem note_chars_alnum : ∀ c ∈ shawzin_note_chars, isPyAlnum c = true := by
  decide

set_option maxRecDepth 10000 in
theorem base64_alnum_lt62 : ∀ i : Fin 62,
    isPyAlnum (base64_chars.getD i.val 'A') = true := by decide

set_option maxRecDepth 10000 in
theorem base64_index_getD : ∀ i : Fin 64,
    py_index base64_chars (base64_chars.getD i.val 'A') = some i.val := by
  decide

theorem base64_alnum_lt62_nat (m : ℕ) (hm : m < 62) :
    isPyAlnum (base64_chars.getD m 'A') = true :=
  base64_alnum_lt62 ⟨m, hm⟩

theorem base64_index_getD_nat (m : ℕ) (hm : m < 64) :
    py_index base64_chars (base64_chars.getD m 'A') = some m :=
  base64_index_getD ⟨m, hm⟩

theorem tick_count_nonneg (d : ℚ) : 0 ≤ tick_count d := by
  unfold tick_count intMax
  split_ifs with h
  · exact h
  · exact le_refl 0

theorem time_to_default (d : ℚ) :
    time_to_shawzin_time d 4 (1/16) =
      [base64_chars.getD (Int.fmod (Int.fdiv (tick_count d) 64) 64).toNat 'A',
       base64_chars.getD (Int.fmod (Int.fmod (tick_count d) 64) 64).toNat 'A'] := by
  unfold time_to_shawzin_time tick_count
  dsimp only
  rw [show intMax 1 (pyRound ((4 : ℚ) / (1/16))) = 64 from by decide]
  rfl

theorem tick_count_close (d : ℚ) (hd : 0 ≤ d) :
    |d - (tick_count d : ℚ) * (1/16)| ≤ 1/16 := by
  have h0 : 0 ≤ pyRound (d / (1/16)) :=
    pyRound_nonneg _ (div_nonneg hd (by norm_num))
  have h2 : tick_count d = pyRound (d / (1/16)) := by
    unfold tick_count intMax
    rw [if_pos h0]
  have h3 := pyRound_close (d / (1/16))
  rw [h2]
  have h4 : d - (pyRound (d / (1/16)) : ℚ) * (1/16) =
      -(((pyRound (d / (1/16)) : ℚ) - d / (1/16)) * (1/16)) := by
    ring
  rw [h4, abs_neg, abs_mul]
  have h5 : |(1/16 : ℚ)| = 1/16 := by norm_num
  rw [h5]
  have h6 := mul_le_mul_of_nonneg_right h3 (by norm_num : (0:ℚ) ≤ 1/16)
  linarith

theorem shawzin_time_decode (m t : ℕ) (hm : m < 64) (ht : t < 64) :
    shawzin_time_to_seconds [base64_chars.getD m 'A', base64_chars.getD t 'A'] =
      .ok ((((m : ℤ) * 64 + (t : ℤ) : ℤ) : ℚ) * (1/16)) := by
  simp only [shawzin_time_to_seconds, base64_index_getD_nat m hm,
    base64_index_getD_nat t ht]
  rw [show intMax 1 (pyRound ((4 : ℚ) / (1/16))) = 64 from by decide]

theorem token_decode (d : ℚ)
    (h1 : tick_count d < 3968)
    (h2 : Int.fmod (tick_count d) 64 < 62) :
    (∀ c ∈ time_to_shawzin_time d 4 (1/16), isPyAlnum c = true) ∧
    shawzin_time_to_seconds (time_to_shawzin_time d 4 (1/16)) =
      .ok ((tick_count d : ℚ) * (1/16)) := by
  have h0 : 0 ≤ tick_count d := tick_count_nonneg d
  have hf : Int.fmod (tick_count d) 64 = tick_count d % 64 :=
    Int.fmod_eq_emod _ (by norm_num)
  have hd6 : Int.fdiv (tick_count d) 64 = tick_count d / 64 :=
    Int.fdiv_eq_ediv _ (by norm_num)
  rw [hf] at h2
  have hm0 : 0 ≤ tick_count d / 64 := Int.ediv_nonneg h0 (by norm_num)
  have hm62 : tick_count d / 64 < 62 := by omega
  have hmm : Int.fmod (tick_count d / 64) 64 = tick_count d / 64 := by
    rw [Int.fmod_eq_emod _ (by norm_num)]
    omega
  have ht0 : 0 ≤ tick_count d % 64 := by omega
  have ht64 : tick_count d % 64 < 64 := by omega
  have htm : Int.fmod (tick_count d % 64) 64 = tick_count d % 64 := by
    rw [Int.fmod_eq_emod _ (by norm_num)]
    omega
  rw [time_to_default, hd6, hf, hmm, htm]
  constructor
  · intro c hc
    rcases List.mem_cons.mp hc with hcc | hc2
    · rw [hcc]
      exact base64_alnum_lt62_nat _ (by omega)
    · rcases List.mem_cons.mp hc2 with hcc | hc3
      · rw [hcc]
        exact base64_alnum_lt62_nat _ (by omega)
      · simp at hc3
  · rw [shawzin_time_decode _ _ (by omega) (by omega)]
    have hcast : ((tick_count d / 64).toNat : ℤ) * 64 +
        ((tick_count d % 64).toNat : ℤ) = tick_count d := by omega
    rw [hcast]

theorem joinNL_last_suffix : ∀ (M : List (List Char)) (x : List Char),
    ∃ p, joinNL (M ++ [x]) = p ++ x := by
  intro M x
  induction M with
  | nil => exact ⟨[], rfl⟩
  | cons l M' ih =>
    obtain ⟨p, hp⟩ := ih
    refine ⟨l ++ '\n' :: p, ?_⟩
    rw [List.cons_append, joinNL_cons _ _ (by simp), hp]
    simp

theorem headD_reverse_append (p x : List Char) (hx : x ≠ []) :
    ∃ c ∈ x, ((p ++ x).reverse).headD ' ' = c := by
  rcases hxr : x.reverse with _ | ⟨a, t⟩
  · exact absurd (by simpa using congrArg List.reverse hxr) hx
  · refine ⟨a, ?_, ?_⟩
    · rw [← List.mem_reverse, hxr]
      exact List.mem_cons_self a t
    · rw [List.reverse_append, hxr]
      rfl

theorem pyStrip_of_ends (l : List Char)
    (h1 : isPyWhitespace (l.headD ' ') = false)
    (h2 : isPyWhitespace (l.reverse.headD ' ') = false) : pyStrip l = l := by
  unfold pyStrip
  have hd : l.dropWhile isPyWhitespace = l := by
    cases l with
    | nil => rfl
    | cons a t =>
      simp only [List.headD_cons] at h1
      exact List.dropWhile_cons_of_neg (by simp [h1])
  rw [hd]
  have hr : l.reverse.dropWhile isPyWhitespace = l.reverse := by
    rcases hrr : l.reverse with _ | ⟨a, t⟩
    · rfl
    · rw [hrr] at h2
      simp only [List.headD_cons] at h2
      exact List.dropWhile_cons_of_neg (by simp [h2])
  rw [hr, List.reverse_reverse]

theorem pyStrip_joinNL_last (M : List (List Char)) (x : List Char)
    (hhd : isPyWhitespace ((joinNL (M ++ [x])).headD ' ') = false)
    (hx : x ≠ [])
    (hxa : ∀ c ∈ x, isPyWhitespace c = false) :
    pyStrip (joinNL (M ++ [x])) = joinNL (M ++ [x]) := by
  apply pyStrip_of_ends _ hhd
  obtain ⟨p, hp⟩ := joinNL_last_suffix M x
  rw [hp]
  obtain ⟨c, hcmem, hc⟩ := headD_reverse_append p x hx
  rw [hc]
  exact hxa c hcmem

theorem joinNL_headD (l1 : List Char) (M : List (List Char)) (c : Char)
    (r : List Char) (h : l1 = c :: r) :
    (joinNL (l1 :: M)).headD ' ' = c := by
  cases M with
  | nil =>
    rw [show joinNL [l1] = l1 from rfl, h]
    rfl
  | cons m M' =>
    rw [joinNL_cons _ _ (by simp), h]
    rfl

theorem joinNL_cons_ne_nil (l1 : List Char) (M : List (List Char)) (c : Char)
    (r : List Char) (h : l1 = c :: r) : joinNL (l1 :: M) ≠ [] := by
  cases M with
  | nil =>
    rw [show joinNL [l1] = l1 from rfl, h]
    simp
  | cons m M' =>
    rw [joinNL_cons _ _ (by simp), h]
    simp

theorem splitNL_joinNL (L : List (List Char)) (hne : L ≠ [])
    (hnl : ∀ l ∈ L, '\n' ∉ l) : splitNL (joinNL L) = L := by
  induction L with
  | nil => exact absurd rfl hne
  | cons l L' ih =>
    cases L' with
    | nil => exact splitNL_nl_free l (hnl l (by simp))
    | cons m M =>
      rw [joinNL_cons _ _ (by simp)]
      rw [splitNL_append_nl_free l (hnl l (by simp)) ('\n' :: joinNL (m :: M))]
      rw [splitNL_cons_nl]
      rw [ih (by simp) (fun y hy => hnl y (by simp [hy]))]
      simp

theorem filter_alnum_joinNL (L : List (List Char))
    (h : ∀ l ∈ L, ∀ c ∈ l, isPyAlnum c = true) :
    (joinNL L).filter isPyAlnum = L.flatten := by
  induction L with
  | nil => rfl
  | cons l L' ih =>
    cases L' with
    | nil =>
      show l.filter isPyAlnum = _
      rw [List.filter_eq_self.mpr (fun c hc => h l (by simp) c hc)]
      simp
    | cons m M =>
      rw [joinNL_cons _ _ (by simp), List.filter_append]
      rw [List.filter_eq_self.mpr (fun c hc => h l (by simp) c hc)]
      rw [show ('\n' :: joinNL (m :: M)).filter isPyAlnum =
          (joinNL (m :: M)).filter isPyAlnum from by
        rw [List.filter_cons]
        rw [if_neg (by decide)]]
      rw [ih (fun y hy c hc => h y (by simp [hy]) c hc)]
      simp

theorem digitChar_scale (s : ℕ) (h1 : 1 ≤ s) (h9 : s ≤ 9) :
    isPyDigit (Nat.digitChar s) = true ∧
    (Nat.digitChar s).toNat - '0'.toNat = s ∧
    isPyAlnum (Nat.digitChar s) = true ∧
    isPyWhitespace (Nat.digitChar s) = false := by
  interval_cases s <;> exact ⟨by decide, by decide, by decide, by decide⟩

theorem scale_header_split_join (l1 : List Char) (Lrest : List (List Char))
    (s : ℕ) (r1 : List Char) (hs1 : 1 ≤ s) (hs9 : s ≤ 9)
    (hl1 : l1 = Nat.digitChar s :: r1)
    (halnum : ∀ l ∈ l1 :: Lrest, ∀ c ∈ l, isPyAlnum c = true) :
    ∃ tc, scale_header_split (joinNL (l1 :: Lrest)) = .ok (s, tc) ∧
      tc.filter isPyAlnum = r1 ++ Lrest.flatten := by
  obtain ⟨hdg, hsub, hda, hdw⟩ := digitChar_scale s hs1 hs9
  have hnl : ∀ l ∈ l1 :: Lrest, '\n' ∉ l := by
    intro l hl hmem
    exact absurd (halnum l hl '\n' hmem) (by decide)
  have hsplit : splitNL (joinNL (l1 :: Lrest)) = l1 :: Lrest :=
    splitNL_joinNL _ (by simp) hnl
  have hstrip : pyStrip l1 = l1 :=
    pyStrip_of_no_ws l1 (fun c hc => alnum_not_ws c (halnum l1 (by simp) c hc))
  have hr1 : ∀ c ∈ r1, isPyAlnum c = true := by
    intro c hc
    exact halnum l1 (by simp) c (by rw [hl1]; exact List.mem_cons_of_mem _ hc)
  have htailok : ∀ l ∈ Lrest, ∀ c ∈ l, isPyAlnum c = true :=
    fun l hl c hc => halnum l (by simp [hl]) c hc
  subst hl1
  unfold scale_header_split
  dsimp only
  rw [hsplit]
  simp only [List.headD_cons]
  rw [hstrip]
  simp only [List.head?_cons]
  rw [if_pos hdg, hsub]
  rw [if_pos ⟨hs1, hs9⟩]
  refine ⟨_, rfl, ?_⟩
  rcases r1 with _ | ⟨rc, rr⟩
  · rw [if_pos (by simp)]
    rcases Lrest with _ | ⟨m, M⟩
    · rw [if_neg (by simp)]
      simp
    · rw [if_pos (by simp)]
      simp only [List.tail_cons]
      rw [filter_alnum_joinNL _ htailok]
      simp
  · rw [if_neg (by simp)]
    rcases Lrest with _ | ⟨m, M⟩
    · rw [if_neg (by simp)]
      simp only [List.tail_cons, List.append_nil]
      rw [List.filter_eq_self.mpr (fun c hc => hr1 c hc)]
      simp
    · rw [if_pos (by simp)]
      simp only [List.tail_cons]
      rw [List.filter_append]
      rw [List.filter_eq_self.mpr (fun c hc => hr1 c hc)]
      rw [show ('\n' :: joinNL (m :: M)).filter isPyAlnum =
          (joinNL (m :: M)).filter isPyAlnum from by
        rw [List.filter_cons, if_neg (by decide)]]
      rw [filter_alnum_joinNL _ htailok]

theorem parse_tokens_from :
    ∀ (notes : List ShawzinNote) (last t : ℚ),
    List.Chain' good_delta (last :: notes.map ShawzinNote.time_sec) →
    (∀ n ∈ notes, n.character ∈ shawzin_note_chars) →
    (∀ c ∈ (tokens_from default_settings last notes).flatten,
      isPyAlnum c = true) ∧
    ∃ decoded,
      parse_note_tokens (tokens_from default_settings last notes).flatten t =
        .ok decoded ∧
      decoded.map Prod.fst = notes.map ShawzinNote.character ∧
      List.Forall₂ (fun d dd => |d - dd| ≤ 1/16)
        (deltas_from last (notes.map ShawzinNote.time_sec))
        (deltas_from t (decoded.map Prod.snd)) := by
  intro notes
  induction notes with
  | nil =>
    intro last t _ _
    refine ⟨?_, [], rfl, rfl, List.Forall₂.nil⟩
    intro c hc
    simp [tokens_from] at hc
  | cons e es ih =>
    intro last t hchain hch
    simp only [List.map_cons] at hchain
    obtain ⟨hgd, hchain2⟩ := List.chain'_cons.mp hchain
    obtain ⟨hle, h3968, h62⟩ := hgd
    have hd0 : 0 ≤ e.time_sec - last := sub_nonneg.mpr hle
    obtain ⟨halchars, hdec⟩ := token_decode (e.time_sec - last) h3968 h62
    obtain ⟨a, b, hab⟩ :=
      time_to_shawzin_time_pair (e.time_sec - last) 4 (1/16)
    have htokeq : tokens_from default_settings last (e :: es) =
        (e.character :: time_to_shawzin_time (e.time_sec - last) 4 (1/16)) ::
          tokens_from default_settings e.time_sec es := rfl
    rw [hab] at halchars
    obtain ⟨ihal, decoded2, hp2, hmap2, hf2⟩ :=
      ih e.time_sec (t + (tick_count (e.time_sec - last) : ℚ) * (1/16))
        hchain2 (fun n hn => hch n (by simp [hn]))
    rw [htokeq, hab]
    have hfl : ((e.character :: [a, b]) ::
        tokens_from default_settings e.time_sec es).flatten =
        e.character :: a :: b ::
          (tokens_from default_settings e.time_sec es).flatten := by
      simp
    rw [hfl]
    constructor
    · intro c hc
      rcases List.mem_cons.mp hc with hcc | hc2
      · rw [hcc]
        exact note_chars_alnum _ (hch e (by simp))
      · rcases List.mem_cons.mp hc2 with hcc | hc3
        · exact halchars c (by rw [hcc]; simp)
        · rcases List.mem_cons.mp hc3 with hcc | hc4
          · exact halchars c (by rw [hcc]; simp)
          · exact ihal c hc4
    · refine ⟨(e.character,
        t + (tick_count (e.time_sec - last) : ℚ) * (1/16)) :: decoded2,
        ?_, ?_, ?_⟩
      · show (do
          let d ← shawzin_time_to_seconds [a, b]
          let tt := t + d
          let tl ← parse_note_tokens
            (tokens_from default_settings e.time_sec es).flatten tt
          pure ((e.character, tt) :: tl)) = _
        rw [← hab, hdec]
        show (do
          let tl ← parse_note_tokens
            (tokens_from default_settings e.time_sec es).flatten
            (t + (tick_count (e.time_sec - last) : ℚ) * (1/16))
          pure ((e.character,
            t + (tick_count (e.time_sec - last) : ℚ) * (1/16)) :: tl) :
            Except String _) = _
        rw [hp2]
        rfl
      · simp only [List.map_cons, hmap2]
      · simp only [List.map_cons]
        refine List.Forall₂.cons ?_ hf2
        have hveq : t + (tick_count (e.time_sec - last) : ℚ) * (1/16) - t =
            (tick_count (e.time_sec - last) : ℚ) * (1/16) := by ring
        show |e.time_sec - last -
          (t + (tick_count (e.time_sec - last) : ℚ) * (1/16) - t)| ≤ 1/16
        rw [hveq]
        exact tick_count_close (e.time_sec - last) hd0

theorem if_true_bool {α : Sort _} (a b : α) :
    (if (true : Bool) = true then a else b) = a := if_pos rfl

theorem headD_append_ne_nil {α : Type} (A B : List α) (d : α) (h : A ≠ []) :
    (A ++ B).headD d = A.headD d := by
  cases A with
  | nil => exact absurd rfl h
  | cons a t => rfl

theorem headD_extend (A : List (List Char)) (x tok : List Char) :
    ∃ tl, (A ++ [x ++ tok]).headD [] = (A ++ [x]).headD [] ++ tl := by
  cases A with
  | nil => exact ⟨tok, rfl⟩
  | cons a A' => exact ⟨[], (List.append_nil a).symm⟩

theorem headD_wrap (A : List (List Char)) (x tok : List Char) :
    ∃ tl, ((A ++ [x]) ++ [tok]).headD [] = (A ++ [x]).headD [] ++ tl := by
  refine ⟨[], ?_⟩
  rw [headD_append_ne_nil _ _ _ (by simp), List.append_nil]

theorem enc_loop_run (mN mL : ℕ) :
    ∀ (evs : List ShawzinNote) (st : EncSt),
    st.notes_in_chunk + evs.length ≤ mN →
    st.line ≠ [] →
    RunRel evs st (evs.foldl (enc_step mN mL true default_settings) st) := by
  intro evs
  induction evs with
  | nil =>
    intro st _ hline
    exact ⟨rfl, hline, by simp [tokens_from], ⟨[], by simp⟩, by simp, rfl⟩
  | cons e es ih =>
    intro st hcount hline
    have hnotrig : ¬ (st.notes_in_chunk ≥ mN) := by
      simp only [List.length_cons] at hcount
      omega
    have hstep : ∃ st1, enc_step mN mL true default_settings st e = st1 ∧
        st1.chunks = st.chunks ∧ st1.line ≠ [] ∧
        (st1.lines ++ [st1.line]).flatten =
          (st.lines ++ [st.line]).flatten ++
            event_to_shawzin_token e.character (e.time_sec - st.last_time)
              default_settings ∧
        (∃ tl, (st1.lines ++ [st1.line]).headD [] =
          (st.lines ++ [st.line]).headD [] ++ tl) ∧
        st1.notes_in_chunk = st.notes_in_chunk + 1 ∧
        st1.last_time = e.time_sec := by
      unfold enc_step
      dsimp only
      rw [if_neg hnotrig]
      simp only [ if_true_bool, if_true]
      by_cases hwrap : st.line.length +
          (event_to_shawzin_token e.character (e.time_sec - st.last_time)
            default_settings).length > mL
      · rw [if_pos hwrap]
        refine ⟨_, rfl, rfl, ?_, ?_, ?_, rfl, rfl⟩
        · unfold event_to_shawzin_token
          simp
        · simp
        · exact headD_wrap st.lines st.line _
      · rw [if_neg hwrap]
        refine ⟨_, rfl, rfl, ?_, ?_, ?_, rfl, rfl⟩
        · intro hc
          exact hline (List.append_eq_nil.mp hc).1
        · simp [List.append_assoc]
        · exact headD_extend st.lines st.line _
    obtain ⟨st1, hst1, hchu, hl1, hfl1, hhd1, hn1, hlt1⟩ := hstep
    simp only [List.foldl_cons]
    rw [hst1]
    have hih := ih st1
      (by simp only [List.length_cons] at hcount; omega) hl1
    obtain ⟨hchu2, hl2, hfl2, hhd2, hn2, hlt2⟩ := hih
    refine ⟨?_, hl2, ?_, ?_, ?_, ?_⟩
    · rw [hchu2, hchu]
    · rw [hfl2, hfl1, hlt1]
      rw [show tokens_from default_settings st.last_time (e :: es) =
          event_to_shawzin_token e.character (e.time_sec - st.last_time)
            default_settings :: tokens_from default_settings e.time_sec es
        from rfl]
      simp [List.append_assoc]
    · obtain ⟨tl1, h1⟩ := hhd1
      obtain ⟨tl2, h2⟩ := hhd2
      exact ⟨tl1 ++ tl2, by rw [h2, h1, List.append_assoc]⟩
    · rw [hn2, hn1]
      simp only [List.length_cons]
      omega
    · rw [hlt2, hlt1]
      simp only [List.map_cons, List.getLastD_cons]

/-- C1 (amended): the round-trip law holds per *delta*, not per absolute
time, and only away from the codec's edge cases.  For a nonempty list of
mapped notes that fits in one chunk (at most `max_notes_per_chunk = 1666`
notes), whose notes carry a uniform scale id in 1-9 and a Shawzin note
character, and whose consecutive time deltas quantize below the
64-measure wraparound with a tick character inside the alphanumeric part
of the time alphabet (`good_delta`), encoding with the default settings
produces a single chunk that decodes to exactly the same symbol sequence,
and each consecutive time delta is reproduced within one tick
(`seconds_per_tick = 1/16` s).  Absolute times are *not* reproduced
within one tick in general — per-delta rounding errors accumulate, see
the counterexample. -/
theorem events_roundtrip_tick_accuracy (notes : List ShawzinNote) (s : ℕ)
    (hne : notes ≠ [])
    (hcnt : notes.length ≤ 1666)
    (hs1 : 1 ≤ s) (hs9 : s ≤ 9)
    (hsc : ∀ n ∈ notes, n.scale_id = s)
    (hch : ∀ n ∈ notes, n.character ∈ shawzin_note_chars)
    (hgd : List.Chain' good_delta ((0 : ℚ) :: notes.map ShawzinNote.time_sec)) :
    ∃ chunk decoded,
      events_to_shawzin_text notes = [chunk] ∧
      read_shawzin_file chunk = .ok (s, decoded) ∧
      decoded.map Prod.fst = notes.map ShawzinNote.character ∧
      deltas_close (notes.map ShawzinNote.time_sec) (decoded.map Prod.snd) := by
  rcases hev : notes with _ | ⟨e0, rest⟩
  · exact absurd hev hne
  · rw [← hev]
    have hs0 : e0.scale_id = s :=
      hsc e0 (by rw [hev]; exact List.mem_cons_self _ _)
    have hheader : create_scale_header e0.scale_id = [Nat.digitChar s] := by
      rw [hs0]
      exact create_scale_header_digit s hs1 hs9
    have hline0 : create_scale_header e0.scale_id ≠ [] := by
      rw [hheader]
      simp
    have hrun := enc_loop_run 1666 256 notes
      ⟨[], [], create_scale_header e0.scale_id, 0, 0⟩
      (by simpa using hcnt) hline0
    set stf := notes.foldl (enc_step 1666 256 true default_settings)
      ⟨[], [], create_scale_header e0.scale_id, 0, 0⟩ with hstf
    obtain ⟨hchu, hlf, hflat, ⟨tl, hhd⟩, _, _⟩ := hrun
    simp only [List.nil_append, List.flatten_cons, List.flatten_nil,
      List.append_nil] at hflat
    simp only [List.nil_append, List.headD_cons] at hhd
    rw [hheader] at hflat hhd
    simp only [List.cons_append, List.nil_append] at hflat hhd
    obtain ⟨htokal, decoded, hpars, hmapd, hforall⟩ :=
      parse_tokens_from notes 0 0 hgd hch
    have halnumL : ∀ l ∈ stf.lines ++ [stf.line], ∀ c ∈ l,
        isPyAlnum c = true := by
      intro l hl c hc
      have hcf : c ∈ (stf.lines ++ [stf.line]).flatten :=
        List.mem_flatten.mpr ⟨l, hl, hc⟩
      rw [hflat] at hcf
      rcases List.mem_cons.mp hcf with hcc | hcm
      · rw [hcc]
        exact (digitChar_scale s hs1 hs9).2.2.1
      · exact htokal c hcm
    have hLf : ∃ l1 Lrest, stf.lines ++ [stf.line] = l1 :: Lrest := by
      rcases stf.lines with _ | ⟨a, A⟩
      · exact ⟨stf.line, [], by simp⟩
      · exact ⟨a, A ++ [stf.line], by simp⟩
    obtain ⟨l1, Lrest, hLf⟩ := hLf
    rw [hLf] at hhd
    simp only [List.headD_cons] at hhd
    have hhdchar :
        isPyWhitespace ((joinNL (stf.lines ++ [stf.line])).headD ' ') =
          false := by
      rw [hLf, joinNL_headD l1 Lrest (Nat.digitChar s) tl hhd]
      exact (digitChar_scale s hs1 hs9).2.2.2
    have hstripid := pyStrip_joinNL_last stf.lines stf.line hhdchar hlf
      (fun c hc => alnum_not_ws c (halnumL stf.line (by simp) c hc))
    have hne2 : joinNL (stf.lines ++ [stf.line]) ≠ [] := by
      rw [hLf]
      exact joinNL_cons_ne_nil l1 Lrest _ tl hhd
    obtain ⟨tc, hsplit, hfiltc⟩ :=
      scale_header_split_join l1 Lrest s tl hs1 hs9 hhd
        (by rw [← hLf]; exact halnumL)
    have hteq : tl ++ Lrest.flatten =
        (tokens_from default_settings 0 notes).flatten := by
      have h1 : (stf.lines ++ [stf.line]).flatten = (l1 :: Lrest).flatten := by
        rw [hLf]
      rw [hflat] at h1
      simp only [List.flatten_cons, hhd, List.cons_append] at h1
      injection h1 with _ h2
      exact h2.symm
    have hpars2 : parse_note_tokens (tc.filter isPyAlnum) 0 = .ok decoded := by
      rw [hfiltc, hteq]
      exact hpars
    have hread : read_shawzin_file (joinNL (stf.lines ++ [stf.line])) =
        .ok (s, decoded) := by
      unfold read_shawzin_file
      dsimp only
      rw [hstripid, if_neg hne2, hLf, hsplit]
      show (do
        let n ← parse_note_tokens (tc.filter isPyAlnum) 0
        pure (s, n) : Except String _) = _
      rw [hpars2]
      rfl
    have heq : events_to_shawzin_text notes =
        [joinNL (stf.lines ++ [stf.line])] := by
      unfold events_to_shawzin_text
      rw [hev]
      dsimp only
      rw [← hev, ← hstf]
      rw [if_neg hlf, if_neg (by simp), if_neg (by simp), hchu]
      simp
    exact ⟨joinNL (stf.lines ++ [stf.line]), decoded, heq, hread, hmapd,
      hforall⟩

/-- Witness for C1 (amended) on a single quarter-second note: the one-token
chunk decodes back to the same symbol with the delta reproduced within a
tick. -/
theorem events_roundtrip_tick_accuracy_witness :
    ∃ chunk decoded,
      events_to_shawzin_text [⟨'1', (1/4 : ℚ), 1, 60, 60, 1, 0⟩] = [chunk] ∧
      read_shawzin_file chunk = .ok (1, decoded) ∧
      decoded.map Prod.fst =
        ([⟨'1', (1/4 : ℚ), 1, 60, 60, 1, 0⟩] : List ShawzinNote).map
          ShawzinNote.character ∧
      deltas_close
        (([⟨'1', (1/4 : ℚ), 1, 60, 60, 1, 0⟩] : List ShawzinNote).map
          ShawzinNote.time_sec)
        (decoded.map Prod.snd) := by
  refine events_roundtrip_tick_accuracy _ 1 (by simp) (by simp)
    (by norm_num) (by norm_num) ?_ ?_ ?_
  · intro n hn
    rw [List.mem_singleton.mp hn]
  · intro n hn
    rw [List.mem_singleton.mp hn]
    decide
  · simp only [List.map_cons, List.map_nil]
    rw [List.chain'_cons]
    exact ⟨⟨by norm_num, by decide, by decide⟩, List.chain'_singleton _⟩

/-- C1 counterexample: three notes at 0.03 s, 0.06 s and 0.09 s encode
(default settings) to the chunk `"11AA1AA1AA"`, which decodes with all
three absolute times equal to 0; the third note's decoded absolute time
is off by 0.09 s, more than one tick (0.0625 s), because the per-delta
rounding errors accumulate.  The claim's "absolute time within one tick"
is therefore false as stated. -/
theorem roundtrip_absolute_time_drift_counterexample :
    events_to_shawzin_text drift_notes =
      [['1', '1', 'A', 'A', '1', 'A', 'A', '1', 'A', 'A']] ∧
    read_shawzin_file ['1', '1', 'A', 'A', '1', 'A', 'A', '1', 'A', 'A'] =
      .ok (1, [('1', (0 : ℚ)), ('1', 0), ('1', 0)]) ∧
    drift_notes.map ShawzinNote.time_sec = [3/100, 6/100, 9/100] ∧
    ¬ (|(([('1', (0 : ℚ)), ('1', 0), ('1', 0)].map Prod.snd).getD 2 0) -
        ((drift_notes.map ShawzinNote.time_sec).getD 2 0)| ≤ 1/16) := by
  refine ⟨by decide, rfl, rfl, ?_⟩
  show ¬ (|(0 : ℚ) - 9/100| ≤ 1/16)
  rw [abs_sub_comm, abs_of_nonneg (by norm_num : (0:ℚ) ≤ 9/100 - 0)]
  norm_num

end M2S
